import Mathlib

/-!
# Chess rules engine of `src/App.js`

A shallow embedding of the rules engine of the `ChessGame` component
(`getKingPosition`, `isSquareAttacked`, `isKingInCheck`, `getPieceMoves`,
`getValidMovesForPiece`, `hasAnyValidMoves`, `handleSquareClick`, `resetGame`,
`getStatusMessage`) together with theorems about it.

Conventions.
* A piece string such as `'wP'` is a `Piece` with a colour (`charAt(0)`) and a
  kind (`charAt(1)`); a board cell is `null` (`none`) or a piece (`some p`).
* A board is an array of rows, each an array of cells: `List (List Cell)`.
* Coordinates are JavaScript numbers that stay integral: `Int`.
* The React state of the component is one `Session` value; every event
  handler is a function from the session of the current render to the session
  of the next render.
-/

namespace Chess

/-! ## Data model -/

/-- First character of a piece string. -/
inductive Color where
  | w
  | b
  deriving DecidableEq, Repr

/-- Second character of a piece string. -/
inductive Kind where
  | P
  | R
  | N
  | B
  | Q
  | K
  deriving DecidableEq, Repr

/-- A piece string such as `'wP'`. -/
structure Piece where
  color : Color
  kind : Kind
  deriving DecidableEq, Repr

/-- A board cell: `null` or a piece string. -/
abbrev Cell := Option Piece

/-- An array of rows, each an array of cells. -/
abbrev Board := List (List Cell)

/-- A move object `{ row, col }`. -/
structure Square where
  row : Int
  col : Int
  deriving DecidableEq, Repr

def wP : Piece := ⟨.w, .P⟩
def wR : Piece := ⟨.w, .R⟩
def wN : Piece := ⟨.w, .N⟩
def wB : Piece := ⟨.w, .B⟩
def wQ : Piece := ⟨.w, .Q⟩
def wK : Piece := ⟨.w, .K⟩
def bP : Piece := ⟨.b, .P⟩
def bR : Piece := ⟨.b, .R⟩
def bN : Piece := ⟨.b, .N⟩
def bB : Piece := ⟨.b, .B⟩
def bQ : Piece := ⟨.b, .Q⟩
def bK : Piece := ⟨.b, .K⟩

/-- The constant `initialBoard`. -/
def initialBoard : Board :=
  [ [some bR, some bN, some bB, some bQ, some bK, some bB, some bN, some bR],
    [some bP, some bP, some bP, some bP, some bP, some bP, some bP, some bP],
    [none, none, none, none, none, none, none, none],
    [none, none, none, none, none, none, none, none],
    [none, none, none, none, none, none, none, none],
    [none, none, none, none, none, none, none, none],
    [some wP, some wP, some wP, some wP, some wP, some wP, some wP, some wP],
    [some wR, some wN, some wB, some wQ, some wK, some wB, some wN, some wR] ]

/-- The board has 8 rows of 8 cells. -/
def Is8x8 (b : Board) : Prop :=
  b.length = 8 ∧ ∀ row ∈ b, row.length = 8

instance (b : Board) : Decidable (Is8x8 b) := by
  unfold Is8x8; infer_instance

/-- Row and column are both in `[0,7]`. -/
def InRange (r c : Int) : Prop :=
  0 ≤ r ∧ r < 8 ∧ 0 ≤ c ∧ c < 8

instance (r c : Int) : Decidable (InRange r c) := by
  unfold InRange; infer_instance

/-- A checked read of `currentBoard[r][c]`: `none` when the row index or the
column index is not an index of the array (where JavaScript yields
`undefined` or throws a `TypeError`), `some cell` otherwise. -/
def readCell (b : Board) (r c : Int) : Option Cell :=
  if 0 ≤ r ∧ 0 ≤ c then
    match b[r.toNat]? with
    | some cells => cells[c.toNat]?
    | none => none
  else none

/-- The read `currentBoard[r][c]`. Every read of the engine sits behind a
bounds guard (or is the pawn's double-step read, which is in range on the
start rank); outside the array the value is taken to be `null`. -/
def cellAt (b : Board) (r c : Int) : Cell :=
  (readCell b r c).getD none

/-- The assignment `board[r][c] = v` on a copy of the board. Every write of the
engine targets a square inside the board; other writes leave the copy as is. -/
def setCell (b : Board) (r c : Int) (v : Cell) : Board :=
  if 0 ≤ r ∧ 0 ≤ c then
    match b[r.toNat]? with
    | some cells => b.set r.toNat (cells.set c.toNat v)
    | none => b
  else b

/-- The idiom `color === 'w' ? 'b' : 'w'`. -/
def opponent (color : Color) : Color :=
  if color = .w then .b else .w

/-- The squares in the order of the nested loops
`for r in 0..7 { for c in 0..7 { .. } }`. -/
def allSquares : List (Int × Int) :=
  (List.range 8).flatMap fun (r : Nat) =>
    (List.range 8).map fun (c : Nat) => (Int.ofNat r, Int.ofNat c)

/-! ## Move generation -/

/-- The closure `addMove(r, c)` of `getPieceMoves`: returns the updated `moves`
array and the boolean result. -/
def addMove (currentBoard : Board) (opponentColor : Color) (moves : List Square)
    (r c : Int) : List Square × Bool :=
  if 0 ≤ r ∧ r < 8 ∧ 0 ≤ c ∧ c < 8 then
    match cellAt currentBoard r c with
    | none => (moves ++ [⟨r, c⟩], true)
    | some q =>
      if q.color = opponentColor then (moves ++ [⟨r, c⟩], false) else (moves, false)
  else (moves, false)

/-- The `while` loop of `addLineMoves`, with the current `r`, `c` and `moves`.
The fuel bounds the number of iterations. -/
def lineLoop (currentBoard : Board) (opponentColor : Color) (dr dc : Int) :
    Nat → Int → Int → List Square → List Square
  | 0, _, _, moves => moves
  | fuel + 1, r, c, moves =>
    if 0 ≤ r ∧ r < 8 ∧ 0 ≤ c ∧ c < 8 then
      match cellAt currentBoard r c with
      | none => lineLoop currentBoard opponentColor dr dc fuel (r + dr) (c + dc) (moves ++ [⟨r, c⟩])
      | some q => if q.color = opponentColor then moves ++ [⟨r, c⟩] else moves
    else moves

/-- The closure `addLineMoves(dr, dc)` of `getPieceMoves`. A ray from a square
of the board leaves the board after at most 7 steps, so 8 iterations reach the
exit of the loop (`lineLoop_fuel`). -/
def addLineMoves (currentBoard : Board) (opponentColor : Color) (row col : Int)
    (moves : List Square) (dr dc : Int) : List Square :=
  lineLoop currentBoard opponentColor dr dc 8 (row + dr) (col + dc) moves

def rookDirs : List (Int × Int) := [(1, 0), (-1, 0), (0, 1), (0, -1)]
def bishopDirs : List (Int × Int) := [(1, 1), (1, -1), (-1, 1), (-1, -1)]
def knightOffsets : List (Int × Int) :=
  [(-2, -1), (-2, 1), (-1, -2), (-1, 2), (1, -2), (1, 2), (2, -1), (2, 1)]
def kingOffsets : List (Int × Int) :=
  [(-1, -1), (-1, 0), (-1, 1), (0, -1), (0, 1), (1, -1), (1, 0), (1, 1)]

/-- The function `getPieceMoves(piece, row, col, currentBoard, isForAttackCheck)`. -/
def getPieceMoves (piece : Piece) (row col : Int) (currentBoard : Board)
    (isForAttackCheck : Bool) : List Square :=
  let color := piece.color
  let opponentColor := opponent color
  match piece.kind with
  | .P =>
    let dir : Int := if color = .w then -1 else 1
    let startRow : Int := if color = .w then 6 else 1
    let moves : List Square :=
      if 0 ≤ row + dir ∧ row + dir < 8 ∧ cellAt currentBoard (row + dir) col = none then
        if row = startRow ∧ cellAt currentBoard (row + 2 * dir) col = none then
          [⟨row + dir, col⟩, ⟨row + 2 * dir, col⟩]
        else [⟨row + dir, col⟩]
      else []
    [(-1 : Int), 1].foldl (fun moves dc =>
      let r := row + dir
      let c := col + dc
      if 0 ≤ r ∧ r < 8 ∧ 0 ≤ c ∧ c < 8 ∧
          (match cellAt currentBoard r c with
           | none => false
           | some q => isForAttackCheck || decide (q.color = opponentColor)) = true then
        moves ++ [⟨r, c⟩]
      else moves) moves
  | .R =>
    rookDirs.foldl (fun moves d => addLineMoves currentBoard opponentColor row col moves d.1 d.2) []
  | .N =>
    knightOffsets.foldl (fun moves d => (addMove currentBoard opponentColor moves (row + d.1) (col + d.2)).1) []
  | .B =>
    bishopDirs.foldl (fun moves d => addLineMoves currentBoard opponentColor row col moves d.1 d.2) []
  | .Q =>
    (rookDirs ++ bishopDirs).foldl (fun moves d => addLineMoves currentBoard opponentColor row col moves d.1 d.2) []
  | .K =>
    kingOffsets.foldl (fun moves d => (addMove currentBoard opponentColor moves (row + d.1) (col + d.2)).1) []

/-! ## Check detection -/

/-- The function `getKingPosition(color, currentBoard)`. -/
def getKingPosition (color : Color) (currentBoard : Board) : Option Square :=
  (allSquares.find? fun rc => cellAt currentBoard rc.1 rc.2 = some ⟨color, .K⟩).map
    fun rc => ⟨rc.1, rc.2⟩

/-- The function `isSquareAttacked(row, col, attackerColor, currentBoard)`. -/
def isSquareAttacked (row col : Int) (attackerColor : Color) (currentBoard : Board) : Bool :=
  allSquares.any fun rc =>
    match cellAt currentBoard rc.1 rc.2 with
    | some piece =>
      decide (piece.color = attackerColor) &&
        (getPieceMoves piece rc.1 rc.2 currentBoard true).any
          (fun move => decide (move.row = row) && decide (move.col = col))
    | none => false

/-- The function `isKingInCheck(kingColor, currentBoard)`. -/
def isKingInCheck (kingColor : Color) (currentBoard : Board) : Bool :=
  match getKingPosition kingColor currentBoard with
  | none => false
  | some kingPos =>
    let opponentColor := opponent kingColor
    isSquareAttacked kingPos.row kingPos.col opponentColor currentBoard

/-- The function `getValidMovesForPiece(piece, row, col, currentBoard)`. -/
def getValidMovesForPiece (piece : Piece) (row col : Int) (currentBoard : Board) :
    List Square :=
  let potentialMoves := getPieceMoves piece row col currentBoard false
  let color := piece.color
  potentialMoves.filter fun move =>
    let tempBoard := setCell currentBoard move.row move.col (some piece)
    let tempBoard := setCell tempBoard row col none
    !isKingInCheck color tempBoard

/-- The function `hasAnyValidMoves(color, currentBoard)`. -/
def hasAnyValidMoves (color : Color) (currentBoard : Board) : Bool :=
  allSquares.any fun rc =>
    match cellAt currentBoard rc.1 rc.2 with
    | some piece =>
      decide (piece.color = color) &&
        decide ((getValidMovesForPiece piece rc.1 rc.2 currentBoard).length > 0)
    | none => false


/-! ## Session and event handlers -/

/-- The values of the state `gameState`. -/
inductive GameState where
  | playing
  | check
  | checkmate
  | stalemate
  deriving DecidableEq, Repr

/-- The object `{ piece, row, col }` of the state `selectedPiece`. -/
structure Selected where
  piece : Piece
  row : Int
  col : Int
  deriving DecidableEq, Repr

/-- The object `{ from, to }` of the state `lastMove`; `from` and `to` are
reserved words, the fields are `fromSq` and `toSq`. -/
structure LastMove where
  fromSq : Square
  toSq : Square
  deriving DecidableEq, Repr

/-- The object `{ w, b }` of the state `captured`. -/
structure Captured where
  w : List Piece
  b : List Piece
  deriving DecidableEq, Repr

/-- The state of the component `ChessGame`, one field per `useState`. -/
structure Session where
  board : Board
  turn : Color
  selectedPiece : Option Selected
  validMoves : List Square
  gameState : GameState
  lastMove : Option LastMove
  captured : Captured
  kingInCheck : Option Color
  deriving DecidableEq, Repr

/-- The state of the first render. -/
def initialSession : Session :=
  { board := initialBoard
    turn := .w
    selectedPiece := none
    validMoves := []
    gameState := .playing
    lastMove := none
    captured := { w := [], b := [] }
    kingInCheck := none }

/-- The ledger update of `handleSquareClick`: `newCaptured` after the lines
186 to 193, for the target cell `newBoard[row][col]`. -/
def recordCapture (captured : Captured) (targetPiece : Cell) : Captured :=
  match targetPiece with
  | some t =>
    let capturedColor := t.color
    let capturedSide := opponent capturedColor
    match capturedSide with
    | .w => { captured with w := captured.w ++ [t] }
    | .b => { captured with b := captured.b ++ [t] }
  | none => captured

/-- The board update of `handleSquareClick`: `newBoard` after the lines 195 to
200, for the selected square `(fromRow, fromCol)` and the clicked square
`(row, col)`. -/
def commitMove (board : Board) (fromRow fromCol row col : Int) : Board :=
  let newBoard := setCell board row col (cellAt board fromRow fromCol)
  let newBoard := setCell newBoard fromRow fromCol none
  let newBoard :=
    if cellAt newBoard row col = some wP ∧ row = 0 then setCell newBoard row col (some wQ)
    else newBoard
  let newBoard :=
    if cellAt newBoard row col = some bP ∧ row = 7 then setCell newBoard row col (some bQ)
    else newBoard
  newBoard

/-- The handler `handleSquareClick(row, col)`. -/
def handleSquareClick (s : Session) (row col : Int) : Session :=
  if s.gameState ≠ .playing ∧ s.gameState ≠ .check then s
  else
    let piece := cellAt s.board row col
    match s.selectedPiece with
    | some selectedPiece =>
      let isValidMove := s.validMoves.any fun m => decide (m.row = row) && decide (m.col = col)
      if isValidMove then
        let newCaptured := recordCapture s.captured (cellAt s.board row col)
        let newBoard := commitMove s.board selectedPiece.row selectedPiece.col row col
        let nextTurn := opponent s.turn
        let inCheck := isKingInCheck nextTurn newBoard
        let anyMove := hasAnyValidMoves nextTurn newBoard
        { board := newBoard
          captured := newCaptured
          lastMove := some ⟨⟨selectedPiece.row, selectedPiece.col⟩, ⟨row, col⟩⟩
          selectedPiece := none
          validMoves := []
          turn := opponent s.turn
          kingInCheck := if inCheck then some nextTurn else none
          gameState :=
            if inCheck then (if !anyMove then .checkmate else .check)
            else (if !anyMove then .stalemate else .playing) }
      else
        { s with selectedPiece := none, validMoves := [] }
    | none =>
      match piece with
      | some piece =>
        if piece.color = s.turn then
          { s with
            selectedPiece := some ⟨piece, row, col⟩
            validMoves := getValidMovesForPiece piece row col s.board }
        else s
      | none => s

/-- The handler `resetGame()`. -/
def resetGame (_s : Session) : Session :=
  { board := initialBoard
    turn := .w
    selectedPiece := none
    validMoves := []
    gameState := .playing
    lastMove := none
    captured := { w := [], b := [] }
    kingInCheck := none }

/-- The memo `getStatusMessage`. -/
def getStatusMessage (s : Session) : String :=
  match s.gameState with
  | .check => (if s.turn = .w then "White" else "Black") ++ " is in check!"
  | .checkmate => "Checkmate! " ++ (if s.turn = .b then "White" else "Black") ++ " wins!"
  | .stalemate => "Stalemate! The game is a draw."
  | .playing => (if s.turn = .w then "White" else "Black") ++ "\x27s Turn"

/-- The sessions a user can produce: clicks on squares of the rendered board
and on the button `New Game`, starting from the first render. -/
inductive Reachable : Session → Prop
  | init : Reachable initialSession
  | click {s : Session} (row col : Int) :
      Reachable s → InRange row col → Reachable (handleSquareClick s row col)
  | reset {s : Session} : Reachable s → Reachable (resetGame s)

/-- The session after a sequence of clicks. -/
def clicks (s : Session) (l : List (Int × Int)) : Session :=
  l.foldl (fun s rc => handleSquareClick s rc.1 rc.2) s

def foolsMate : List (Int × Int) :=
  [(6, 5), (5, 5), (1, 4), (3, 4), (6, 6), (4, 6), (0, 3), (4, 7)]

/-! ## Predicates used in the statements -/

/-- A square is free for a mover whose opponent has colour `opp`: it is empty
or holds a piece of colour `opp`. -/
def FreeFor (b : Board) (opp : Color) (r c : Int) : Prop :=
  cellAt b r c = none ∨ ∃ q, cellAt b r c = some q ∧ q.color = opp

/-- Forward direction of a pawn: `color === 'w' ? -1 : 1`. -/
def pawnDir (color : Color) : Int := if color = .w then -1 else 1

/-- Start rank of a pawn: `color === 'w' ? 6 : 1`. -/
def pawnStartRow (color : Color) : Int := if color = .w then 6 else 1

/-- The directions of the rays of a sliding piece: one step of -1, 0 or 1 in row
and in column; orthogonal for a rook, diagonal for a bishop, either for a queen. -/
def IsRay (k : Kind) (dr dc : Int) : Prop :=
  (dr = -1 ∨ dr = 0 ∨ dr = 1) ∧ (dc = -1 ∨ dc = 0 ∨ dc = 1) ∧
    match k with
    | .R => (dr = 0 ∧ dc ≠ 0) ∨ (dr ≠ 0 ∧ dc = 0)
    | .B => dr ≠ 0 ∧ dc ≠ 0
    | .Q => dr ≠ 0 ∨ dc ≠ 0
    | _ => False

/-- The square `d` lies on the ray from `(row, col)` in direction `(dr, dc)`, on
the board, every square strictly between is empty, and `d` is empty or holds a
piece of colour `opp`. -/
def RayReach (b : Board) (opp : Color) (row col dr dc : Int) (d : Square) : Prop :=
  ∃ k : Nat, 1 ≤ k ∧ d = ⟨row + k * dr, col + k * dc⟩ ∧ InRange d.row d.col ∧
    (∀ j : Nat, 1 ≤ j → j < k → cellAt b (row + j * dr) (col + j * dc) = none) ∧
    FreeFor b opp d.row d.col

/-- The offsets of a knight, (+-1, +-2) and (+-2, +-1), and of a king, the 8
adjacent cells. -/
def IsOffset (k : Kind) (dr dc : Int) : Prop :=
  match k with
  | .N => ((dr = 1 ∨ dr = -1) ∧ (dc = 2 ∨ dc = -2)) ∨ ((dr = 2 ∨ dr = -2) ∧ (dc = 1 ∨ dc = -1))
  | .K => (dr = -1 ∨ dr = 0 ∨ dr = 1) ∧ (dc = -1 ∨ dc = 0 ∨ dc = 1) ∧ (dr ≠ 0 ∨ dc ≠ 0)
  | _ => False

/-! ## Definitions: move generation with checked reads -/

/-- The closure `addMove(r, c)` with every read of the board checked: `none` as
soon as a read falls outside the array. -/
def addMoveChecked (currentBoard : Board) (opponentColor : Color) (moves : List Square)
    (r c : Int) : Option (List Square × Bool) :=
  if 0 ≤ r ∧ r < 8 ∧ 0 ≤ c ∧ c < 8 then
    match readCell currentBoard r c with
    | none => none
    | some none => some (moves ++ [⟨r, c⟩], true)
    | some (some q) =>
      if q.color = opponentColor then some (moves ++ [⟨r, c⟩], false) else some (moves, false)
  else some (moves, false)

/-- The `while` loop of `addLineMoves` with every read of the board checked. -/
def lineLoopChecked (currentBoard : Board) (opponentColor : Color) (dr dc : Int) :
    Nat → Int → Int → List Square → Option (List Square)
  | 0, _, _, moves => some moves
  | fuel + 1, r, c, moves =>
    if 0 ≤ r ∧ r < 8 ∧ 0 ≤ c ∧ c < 8 then
      match readCell currentBoard r c with
      | none => none
      | some none =>
        lineLoopChecked currentBoard opponentColor dr dc fuel (r + dr) (c + dc) (moves ++ [⟨r, c⟩])
      | some (some q) => if q.color = opponentColor then some (moves ++ [⟨r, c⟩]) else some moves
    else some moves

/-- The closure `addLineMoves(dr, dc)` with every read of the board checked. -/
def addLineMovesChecked (currentBoard : Board) (opponentColor : Color) (row col : Int)
    (moves : List Square) (dr dc : Int) : Option (List Square) :=
  lineLoopChecked currentBoard opponentColor dr dc 8 (row + dr) (col + dc) moves

/-- The function `getPieceMoves` with every read of the board checked: the
result is `none` as soon as a read `currentBoard[r][c]` falls outside the
array, and the list of moves otherwise. The reads happen where the source
evaluates them: behind the short-circuit `&&` of their guards. -/
def getPieceMovesChecked (piece : Piece) (row col : Int) (currentBoard : Board)
    (isForAttackCheck : Bool) : Option (List Square) :=
  let color := piece.color
  let opponentColor := opponent color
  match piece.kind with
  | .P =>
    let dir : Int := if color = .w then -1 else 1
    let startRow : Int := if color = .w then 6 else 1
    let forward : Option (List Square) :=
      if 0 ≤ row + dir ∧ row + dir < 8 then
        match readCell currentBoard (row + dir) col with
        | none => none
        | some none =>
          if row = startRow then
            match readCell currentBoard (row + 2 * dir) col with
            | none => none
            | some none => some [⟨row + dir, col⟩, ⟨row + 2 * dir, col⟩]
            | some (some _) => some [⟨row + dir, col⟩]
          else some [⟨row + dir, col⟩]
        | some (some _) => some []
      else some []
    forward.bind fun moves =>
      [(-1 : Int), 1].foldlM (fun moves dc =>
        let r := row + dir
        let c := col + dc
        if 0 ≤ r ∧ r < 8 ∧ 0 ≤ c ∧ c < 8 then
          match readCell currentBoard r c with
          | none => none
          | some none => some moves
          | some (some q) =>
            if (isForAttackCheck || decide (q.color = opponentColor)) = true then
              some (moves ++ [⟨r, c⟩])
            else some moves
        else some moves) moves
  | .R =>
    rookDirs.foldlM
      (fun moves d => addLineMovesChecked currentBoard opponentColor row col moves d.1 d.2) []
  | .N =>
    knightOffsets.foldlM
      (fun moves d =>
        (addMoveChecked currentBoard opponentColor moves (row + d.1) (col + d.2)).map Prod.fst) []
  | .B =>
    bishopDirs.foldlM
      (fun moves d => addLineMovesChecked currentBoard opponentColor row col moves d.1 d.2) []
  | .Q =>
    (rookDirs ++ bishopDirs).foldlM
      (fun moves d => addLineMovesChecked currentBoard opponentColor row col moves d.1 d.2) []
  | .K =>
    kingOffsets.foldlM
      (fun moves d =>
        (addMoveChecked currentBoard opponentColor moves (row + d.1) (col + d.2)).map Prod.fst) []

/-! ## Definitions used in the proofs -/

/-- The board after 1. e4 d5 2. d3 (`pawnChainBoard_played`): the white pawn on
d3 (5,3) guards the white pawn on e4 (4,4), which attacks the black pawn on
d5 (3,3). -/
def pawnChainBoard : Board :=
  [ [some bR, some bN, some bB, some bQ, some bK, some bB, some bN, some bR],
    [some bP, some bP, some bP, none, some bP, some bP, some bP, some bP],
    [none, none, none, none, none, none, none, none],
    [none, none, none, some bP, none, none, none, none],
    [none, none, none, none, some wP, none, none, none],
    [none, none, none, some wP, none, none, none, none],
    [some wP, some wP, some wP, none, none, some wP, some wP, some wP],
    [some wR, some wN, some wB, some wQ, some wK, some wB, some wN, some wR] ]

/-- Two boards hold pieces of the same colours on the same squares. -/
def SameColors (b1 b2 : Board) : Prop :=
  ∀ r c, (cellAt b1 r c).map Piece.color = (cellAt b2 r c).map Piece.color

/-- The scratch board of `getValidMovesForPiece` for the move of `piece` from
`(row, col)` to `move`. -/
def tempBoard (currentBoard : Board) (piece : Piece) (row col : Int) (move : Square) : Board :=
  setCell (setCell currentBoard move.row move.col (some piece)) row col none

/-- Number of kings of a colour on the board. -/
def kingCount (color : Color) (b : Board) : Nat :=
  allSquares.countP fun rc => decide (cellAt b rc.1 rc.2 = some ⟨color, .K⟩)

/-- The session that the move branch of `handleSquareClick` (lines 185 to 224)
produces for the selection `sel` and the clicked square `(row, col)`. -/
def moveResult (s : Session) (sel : Selected) (row col : Int) : Session :=
  { board := commitMove s.board sel.row sel.col row col
    captured := recordCapture s.captured (cellAt s.board row col)
    lastMove := some ⟨⟨sel.row, sel.col⟩, ⟨row, col⟩⟩
    selectedPiece := none
    validMoves := []
    turn := opponent s.turn
    kingInCheck :=
      if isKingInCheck (opponent s.turn) (commitMove s.board sel.row sel.col row col) then
        some (opponent s.turn) else none
    gameState :=
      if isKingInCheck (opponent s.turn) (commitMove s.board sel.row sel.col row col) then
        (if !hasAnyValidMoves (opponent s.turn) (commitMove s.board sel.row sel.col row col)
          then .checkmate else .check)
      else
        (if !hasAnyValidMoves (opponent s.turn) (commitMove s.board sel.row sel.col row col)
          then .stalemate else .playing) }

/-- The status that `handleSquareClick` derives for the side to move. -/
def statusOf (turn : Color) (b : Board) : GameState :=
  if isKingInCheck turn b then (if !hasAnyValidMoves turn b then .checkmate else .check)
  else (if !hasAnyValidMoves turn b then .stalemate else .playing)

/-- Invariant of the reachable sessions. -/
structure Inv (s : Session) : Prop where
  size : Is8x8 s.board
  kingW : kingCount .w s.board = 1
  kingB : kingCount .b s.board = 1
  safe : isKingInCheck (opponent s.turn) s.board = false
  sel : ∀ sp, s.selectedPiece = some sp →
    InRange sp.row sp.col ∧ cellAt s.board sp.row sp.col = some sp.piece ∧
      sp.piece.color = s.turn ∧
      s.validMoves = getValidMovesForPiece sp.piece sp.row sp.col s.board
  nosel : s.selectedPiece = none → s.validMoves = []
  status : s.gameState = statusOf s.turn s.board

/-! ## Definitions: ledger, material and the captured-pieces panels -/

/-- The entry `captured[color]` of the capture ledger. -/
def ledger (color : Color) (captured : Captured) : List Piece :=
  match color with
  | .w => captured.w
  | .b => captured.b

/-- The cell holds a piece of the colour. -/
def holdsColor (color : Color) (cell : Cell) : Bool :=
  match cell with
  | some q => decide (q.color = color)
  | none => false

/-- Number of pieces of a colour on the board. -/
def pieceCount (color : Color) (b : Board) : Nat :=
  allSquares.countP fun rc => holdsColor color (cellAt b rc.1 rc.2)

/-- The props `{ pieces, color }` of a `CapturedPiecesPanel`. -/
structure PanelProps where
  pieces : List Piece
  color : Color
  deriving DecidableEq, Repr

/-- The heading of `CapturedPiecesPanel` (line 261). -/
def panelHeading (color : Color) : String :=
  (if color = .w then "White" else "Black") ++ " has captured:"

/-- The two panels that `ChessGame` renders (lines 323 and 324):
`pieces={captured.b} color="w"` and `pieces={captured.w} color="b"`. -/
def capturedPanels (s : Session) : List PanelProps :=
  [⟨s.captured.b, .w⟩, ⟨s.captured.w, .b⟩]

/-- The squares of a row, columns 0 to 7. -/
def rowCells (b : Board) (r : Int) : List Cell :=
  [0, 1, 2, 3, 4, 5, 6, 7].map fun c => cellAt b r c

/-- Further invariant of the reachable sessions: a selection is only active
while the game goes on; no pawn stands on the farthest rank of its colour;
material is conserved; the ledger of a colour holds pieces of the other colour. -/
structure Inv2 (s : Session) : Prop where
  selPlaying : ∀ sp, s.selectedPiece = some sp →
    (s.gameState = .playing ∨ s.gameState = .check)
  noPawnW : ∀ c, cellAt s.board 0 c ≠ some wP
  noPawnB : ∀ c, cellAt s.board 7 c ≠ some bP
  material : ∀ color,
    pieceCount color s.board + (ledger (opponent color) s.captured).length = 16
  ledgerColor : ∀ color, ∀ q ∈ ledger color s.captured, q.color = opponent color

/-- The session after 1. e4 d5 and a click on the pawn on e4
(`captureSession_played`): the pawn is selected and may capture on d5. -/
def captureSession : Session :=
  { board :=
      [ [some bR, some bN, some bB, some bQ, some bK, some bB, some bN, some bR],
        [some bP, some bP, some bP, none, some bP, some bP, some bP, some bP],
        [none, none, none, none, none, none, none, none],
        [none, none, none, some bP, none, none, none, none],
        [none, none, none, none, some wP, none, none, none],
        [none, none, none, none, none, none, none, none],
        [some wP, some wP, some wP, some wP, none, some wP, some wP, some wP],
        [some wR, some wN, some wB, some wQ, some wK, some wB, some wN, some wR] ]
    turn := .w
    selectedPiece := some ⟨wP, 4, 4⟩
    validMoves := [⟨3, 4⟩, ⟨3, 3⟩]
    gameState := .playing
    lastMove := some ⟨⟨1, 3⟩, ⟨3, 3⟩⟩
    captured := { w := [], b := [] }
    kingInCheck := none }

/-- The standard chess attack relation: the piece `p` on `(r, c)` attacks the
square `(kr, kc)`. A pawn attacks the two squares diagonally one step forward;
a knight and a king the squares at their offsets; a rook, bishop or queen the
squares on its rays with every square strictly between empty. -/
def StandardAttack (b : Board) (p : Piece) (r c kr kc : Int) : Prop :=
  match p.kind with
  | .P => kr = r + pawnDir p.color ∧ (kc = c - 1 ∨ kc = c + 1)
  | .N => IsOffset .N (kr - r) (kc - c)
  | .K => IsOffset .K (kr - r) (kc - c)
  | k => ∃ dr dc, IsRay k dr dc ∧ ∃ n : Nat, 1 ≤ n ∧ kr = r + n * dr ∧ kc = c + n * dc ∧
      ∀ j : Nat, 1 ≤ j → j < n → cellAt b (r + j * dr) (c + j * dc) = none

/-- The board of the Fool's Mate position: the black queen on h4 (4,7) checks
the white king on e1 (7,4) along the diagonal. -/
def foolsMateBoard : Board :=
  [ [some bR, some bN, some bB, none, some bK, some bB, some bN, some bR],
    [some bP, some bP, some bP, some bP, none, some bP, some bP, some bP],
    [none, none, none, none, none, none, none, none],
    [none, none, none, none, some bP, none, none, none],
    [none, none, none, none, none, none, some wP, some bQ],
    [none, none, none, none, none, some wP, none, none],
    [some wP, some wP, some wP, some wP, some wP, none, none, some wP],
    [some wR, some wN, some wB, some wQ, some wK, some wB, some wN, some wR] ]

/-- A board with a pin on the e-file: the white bishop on e3 (5,4) shields the
white king on e1 (7,4) from the black rook on e7 (1,4). -/
def pinBoard : Board :=
  [ [some bK, none, none, none, none, none, none, none],
    [none, none, none, none, some bR, none, none, none],
    [none, none, none, none, none, none, none, none],
    [none, none, none, none, none, none, none, none],
    [none, none, none, none, none, none, none, none],
    [none, none, none, none, some wB, none, none, none],
    [none, none, none, none, none, none, none, none],
    [none, none, none, none, some wK, none, none, none] ]

/-! ## Board lemmas -/

theorem cellAt_setCell_ne (b : Board) (r c r2 c2 : Int) (v : Cell)
    (h : ¬ (r2 = r ∧ c2 = c)) : cellAt (setCell b r c v) r2 c2 = cellAt b r2 c2 := by
  unfold setCell
  split
  · rename_i hrc
    split
    · rename_i line hline
      unfold cellAt readCell
      by_cases h2 : 0 ≤ r2 ∧ 0 ≤ c2
      · simp only [h2, and_self, if_true]
        by_cases hr : r.toNat = r2.toNat
        · have hr2 : r2 = r := by omega
          have hc2 : ¬ c.toNat = c2.toNat := by
            intro hc; apply h; constructor <;> omega
          have hlt : r2.toNat < b.length := by
            rw [← hr]; exact (List.getElem?_eq_some.mp hline).1
          rw [← hr] at *
          simp [List.getElem?_set, hline, hc2, hlt]
        · simp [List.getElem?_set, hr]
      · simp [h2]
    · rfl
  · rfl

theorem cellAt_setCell_same (b : Board) (r c : Int) (v : Cell)
    (hb : Is8x8 b) (hr : InRange r c) : cellAt (setCell b r c v) r c = v := by
  obtain ⟨h0, h1, h2, h3⟩ := hr
  have hlt : r.toNat < b.length := by rw [hb.1]; omega
  have hline : b[r.toNat]? = some b[r.toNat] := List.getElem?_eq_getElem hlt
  have hlen : (b[r.toNat]).length = 8 := hb.2 _ (List.getElem_mem _)
  have hc : c.toNat < (b[r.toNat]).length := by rw [hlen]; omega
  unfold setCell cellAt readCell
  simp [h0, h2, hline, hlt, hc]

theorem is8x8_setCell (b : Board) (r c : Int) (v : Cell) (hb : Is8x8 b) :
    Is8x8 (setCell b r c v) := by
  unfold setCell
  split
  · split
    · rename_i line hline
      refine ⟨by simp [hb.1], ?_⟩
      intro row hrow
      rcases List.mem_or_eq_of_mem_set hrow with h | h
      · exact hb.2 _ h
      · rw [h, List.length_set]
        exact hb.2 _ (List.getElem?_mem hline)
    · exact hb
  · exact hb

theorem mem_allSquares (r c : Int) : (r, c) ∈ allSquares ↔ InRange r c := by
  unfold allSquares InRange
  simp only [List.mem_flatMap, List.mem_range, List.mem_map, Prod.mk.injEq, Int.ofNat_eq_coe]
  constructor
  · rintro ⟨a, ha, b, hb, h1, h2⟩
    omega
  · rintro ⟨h0, h1, h2, h3⟩
    exact ⟨r.toNat, by omega, c.toNat, by omega, by omega, by omega⟩

/-! ## Move generation lemmas -/

theorem mem_foldl_acc {α β : Type} (f : List β → α → List β) (P : α → β → Prop)
    (hf : ∀ acc a m, m ∈ f acc a ↔ m ∈ acc ∨ P a m) (l : List α) (init : List β) (m : β) :
    m ∈ l.foldl f init ↔ m ∈ init ∨ ∃ a ∈ l, P a m := by
  induction l generalizing init with
  | nil => simp
  | cons a l ih =>
    rw [List.foldl_cons, ih, hf]
    simp only [List.mem_cons, exists_eq_or_imp]
    tauto

theorem mem_addMove (b : Board) (opp : Color) (moves : List Square) (r c : Int) (m : Square) :
    m ∈ (addMove b opp moves r c).1 ↔
      m ∈ moves ∨ (m = ⟨r, c⟩ ∧ InRange r c ∧ FreeFor b opp r c) := by
  unfold addMove FreeFor InRange
  split
  · rename_i h
    split
    · rename_i hc
      simp [hc, h]
    · rename_i q hc
      split
      · rename_i hq
        simp [hc, h, hq]
      · rename_i hq
        simp [hc, h, hq]
  · rename_i h
    simp only [iff_self_or]
    rintro ⟨_, h2, _⟩
    exact absurd h2 h

theorem mem_lineLoop (b : Board) (opp : Color) (dr dc : Int) (fuel : Nat) (r c : Int)
    (moves : List Square) (m : Square) :
    m ∈ lineLoop b opp dr dc fuel r c moves ↔
      m ∈ moves ∨ ∃ k : Nat, k < fuel ∧ m = ⟨r + k * dr, c + k * dc⟩ ∧
        InRange (r + k * dr) (c + k * dc) ∧
        (∀ j : Nat, j < k → InRange (r + j * dr) (c + j * dc) ∧
          cellAt b (r + j * dr) (c + j * dc) = none) ∧
        FreeFor b opp (r + k * dr) (c + k * dc) := by
  induction fuel generalizing r c moves with
  | zero => simp [lineLoop]
  | succ n ih =>
    unfold lineLoop
    split
    · rename_i hin
      split
      · rename_i hc
        have e1 : ∀ k : Nat, r + dr + (k : Int) * dr = r + ((k + 1 : Nat) : Int) * dr :=
          fun k => by push_cast; ring
        have e2 : ∀ k : Nat, c + dc + (k : Int) * dc = c + ((k + 1 : Nat) : Int) * dc :=
          fun k => by push_cast; ring
        rw [ih]
        simp only [List.mem_append, List.mem_singleton]
        constructor
        · rintro ((h | h) | ⟨k, hk, hm, hr, hj, hf⟩)
          · exact Or.inl h
          · refine Or.inr ⟨0, by omega, by simpa using h, by simpa [InRange] using hin, ?_, ?_⟩
            · intro j hj; omega
            · left; simpa using hc
          · refine Or.inr ⟨k + 1, by omega, ?_, ?_, ?_, ?_⟩
            · rw [hm, e1, e2]
            · rw [← e1, ← e2]; exact hr
            · intro j hj'
              rcases j with _ | j
              · simpa [InRange] using And.intro hin hc
              · rw [← e1, ← e2]; exact hj j (by omega)
            · rw [← e1, ← e2]; exact hf
        · rintro (h | ⟨k, hk, hm, hr, hj, hf⟩)
          · exact Or.inl (Or.inl h)
          · rcases k with _ | k
            · left; right; simpa using hm
            · right
              refine ⟨k, by omega, ?_, ?_, ?_, ?_⟩
              · rw [hm, e1, e2]
              · rw [e1, e2]; exact hr
              · intro j hj'
                rw [e1, e2]; exact hj (j + 1) (by omega)
              · rw [e1, e2]; exact hf
      · rename_i q hc
        constructor
        · intro h
          by_cases hq : q.color = opp
          · simp only [hq, if_true, List.mem_append, List.mem_singleton] at h
            rcases h with h | h
            · exact Or.inl h
            · refine Or.inr ⟨0, by omega, by simpa using h, by simpa [InRange] using hin, ?_, ?_⟩
              · intro j hj; omega
              · right; exact ⟨q, by simpa using hc, hq⟩
          · simp only [hq, if_false] at h
            exact Or.inl h
        · rintro (h | ⟨k, hk, hm, hr, hj, hf⟩)
          · split
            · simp [h]
            · exact h
          · rcases k with _ | k
            · simp only [Nat.cast_zero, zero_mul, add_zero] at hm hf
              rcases hf with hf | ⟨q2, hq2, hcol⟩
              · rw [hc] at hf; exact absurd hf (by simp)
              · rw [hc] at hq2
                cases hq2
                simp [hcol, hm]
            · have := (hj 0 (by omega)).2
              simp only [Nat.cast_zero, zero_mul, add_zero] at this
              rw [hc] at this
              exact absurd this (by simp)
    · rename_i hin
      simp only [iff_self_or]
      rintro ⟨k, hk, hm, hr, hj, hf⟩
      rcases k with _ | k
      · simp [InRange] at hr; exact absurd hr hin
      · have := (hj 0 (by omega)).1
        simp [InRange] at this; exact absurd this hin

theorem mem_pawnMoves (b : Board) (p : Piece) (row col : Int) (atk : Bool) (d : Square)
    (hk : p.kind = .P) :
    d ∈ getPieceMoves p row col b atk ↔
      (d = ⟨row + pawnDir p.color, col⟩ ∧ 0 ≤ row + pawnDir p.color ∧
          row + pawnDir p.color < 8 ∧ cellAt b (row + pawnDir p.color) col = none) ∨
      (d = ⟨row + 2 * pawnDir p.color, col⟩ ∧ 0 ≤ row + pawnDir p.color ∧
          row + pawnDir p.color < 8 ∧ cellAt b (row + pawnDir p.color) col = none ∧
          row = pawnStartRow p.color ∧ cellAt b (row + 2 * pawnDir p.color) col = none) ∨
      (∃ dc : Int, (dc = -1 ∨ dc = 1) ∧ d = ⟨row + pawnDir p.color, col + dc⟩ ∧
          InRange (row + pawnDir p.color) (col + dc) ∧
          ∃ q, cellAt b (row + pawnDir p.color) (col + dc) = some q ∧
            (atk = true ∨ q.color = opponent p.color)) := by
  have hd : (if p.color = Color.w then (-1 : Int) else 1) = pawnDir p.color := rfl
  have hs : (if p.color = Color.w then (6 : Int) else 1) = pawnStartRow p.color := rfl
  unfold getPieceMoves
  simp only [hk, hd, hs]
  rw [mem_foldl_acc _ (fun dc m => m = ⟨row + pawnDir p.color, col + dc⟩ ∧
          InRange (row + pawnDir p.color) (col + dc) ∧
          ∃ q, cellAt b (row + pawnDir p.color) (col + dc) = some q ∧
            (atk = true ∨ q.color = opponent p.color))]
  · simp only [List.mem_cons, List.mem_singleton, List.not_mem_nil, or_false]
    constructor
    · rintro (h | ⟨dc, hdc, h⟩)
      · split at h
        · rename_i h1
          split at h
          · rename_i h2
            simp only [List.mem_cons, List.mem_singleton, List.not_mem_nil, or_false] at h
            rcases h with h | h
            · exact Or.inl ⟨h, h1⟩
            · exact Or.inr (Or.inl ⟨h, h1.1, h1.2.1, h1.2.2, h2⟩)
          · simp only [List.mem_cons, List.mem_singleton, List.not_mem_nil, or_false] at h
            exact Or.inl ⟨h, h1⟩
        · simp at h
      · exact Or.inr (Or.inr ⟨dc, hdc, h⟩)
    · rintro (⟨h, h1⟩ | ⟨h, h1, h2, h3, h4⟩ | ⟨dc, hdc, h⟩)
      · left
        rw [if_pos h1]
        split <;> simp [h]
      · left
        rw [if_pos ⟨h1, h2, h3⟩, if_pos h4]
        simp [h]
      · exact Or.inr ⟨dc, hdc, h⟩
  · intro acc dc m
    simp only [InRange]
    split
    · rename_i h
      obtain ⟨h1, h2, h3, h4, h5⟩ := h
      simp only [List.mem_append, List.mem_singleton]
      constructor
      · rintro (h | h)
        · exact Or.inl h
        · refine Or.inr ⟨h, ⟨h1, h2, h3, h4⟩, ?_⟩
          split at h5
          · simp at h5
          · rename_i q hq
            refine ⟨q, hq, ?_⟩
            simpa using h5
      · rintro (h | ⟨h, _⟩)
        · exact Or.inl h
        · exact Or.inr h
    · rename_i h
      simp only [iff_self_or]
      rintro ⟨_, ⟨h1, h2, h3, h4⟩, q, hq, hq2⟩
      exfalso; apply h
      refine ⟨h1, h2, h3, h4, ?_⟩
      rw [hq]
      simpa using hq2

theorem mem_rookDirs (dr dc : Int) : (dr, dc) ∈ rookDirs ↔ IsRay .R dr dc := by
  simp only [rookDirs, IsRay, List.mem_cons, List.mem_singleton, List.not_mem_nil, or_false,
    Prod.mk.injEq]
  omega

theorem mem_bishopDirs (dr dc : Int) : (dr, dc) ∈ bishopDirs ↔ IsRay .B dr dc := by
  simp only [bishopDirs, IsRay, List.mem_cons, List.mem_singleton, List.not_mem_nil, or_false,
    Prod.mk.injEq]
  omega

theorem mem_queenDirs (dr dc : Int) : (dr, dc) ∈ rookDirs ++ bishopDirs ↔ IsRay .Q dr dc := by
  simp only [rookDirs, bishopDirs, IsRay, List.mem_cons, List.mem_singleton, List.not_mem_nil,
    or_false, Prod.mk.injEq, List.mem_append]
  omega

theorem mem_addLineMoves (b : Board) (opp : Color) (row col : Int) (moves : List Square)
    (dr dc : Int) (m : Square) (hs : InRange row col)
    (hdr : dr = -1 ∨ dr = 0 ∨ dr = 1) (hdc : dc = -1 ∨ dc = 0 ∨ dc = 1)
    (hne : dr ≠ 0 ∨ dc ≠ 0) :
    m ∈ addLineMoves b opp row col moves dr dc ↔
      m ∈ moves ∨ RayReach b opp row col dr dc m := by
  unfold addLineMoves RayReach
  rw [mem_lineLoop]
  have e1 : ∀ k : Nat, row + dr + (k : Int) * dr = row + ((k + 1 : Nat) : Int) * dr :=
    fun k => by push_cast; ring
  have e2 : ∀ k : Nat, col + dc + (k : Int) * dc = col + ((k + 1 : Nat) : Int) * dc :=
    fun k => by push_cast; ring
  apply or_congr Iff.rfl
  constructor
  · rintro ⟨k, _, hm, hr, hj, hf⟩
    refine ⟨k + 1, by omega, ?_, ?_, ?_, ?_⟩
    · rw [hm, e1, e2]
    · rw [hm]; exact hr
    · intro j hj1 hj2
      obtain ⟨j, rfl⟩ : ∃ i, j = i + 1 := ⟨j - 1, by omega⟩
      rw [← e1, ← e2]
      exact (hj j (by omega)).2
    · rw [hm]; exact hf
  · rintro ⟨k, hk, hm, hr, hj, hf⟩
    obtain ⟨k, rfl⟩ : ∃ i, k = i + 1 := ⟨k - 1, by omega⟩
    rw [hm] at hr hf
    simp only at hr hf
    have hk8 : k < 8 := by
      unfold InRange at hr hs
      push_cast at hr
      rcases hdr with h | h | h <;> rcases hdc with h2 | h2 | h2 <;> subst h <;> subst h2 <;>
        omega
    refine ⟨k, hk8, ?_, ?_, ?_, ?_⟩
    · rw [hm, e1, e2]
    · rw [e1, e2]; exact hr
    · intro j hj'
      rw [e1, e2]
      refine ⟨?_, hj (j + 1) (by omega) (by omega)⟩
      unfold InRange at hr hs ⊢
      push_cast at hr ⊢
      rcases hdr with h | h | h <;> rcases hdc with h2 | h2 | h2 <;> subst h <;> subst h2 <;>
        omega
    · rw [e1, e2]; exact hf

theorem mem_slidingMoves (b : Board) (p : Piece) (row col : Int) (atk : Bool) (d : Square)
    (hs : InRange row col) (hk : p.kind = .R ∨ p.kind = .B ∨ p.kind = .Q) :
    d ∈ getPieceMoves p row col b atk ↔
      ∃ dr dc, IsRay p.kind dr dc ∧ RayReach b (opponent p.color) row col dr dc d := by
  have key : ∀ l : List (Int × Int), (∀ dr dc, (dr, dc) ∈ l ↔ IsRay p.kind dr dc) →
      (d ∈ l.foldl (fun moves x => addLineMoves b (opponent p.color) row col moves x.1 x.2) [] ↔
        ∃ dr dc, IsRay p.kind dr dc ∧ RayReach b (opponent p.color) row col dr dc d) := by
    intro l hl
    have hray : ∀ dr dc, IsRay p.kind dr dc →
        (dr = -1 ∨ dr = 0 ∨ dr = 1) ∧ (dc = -1 ∨ dc = 0 ∨ dc = 1) ∧ (dr ≠ 0 ∨ dc ≠ 0) := by
      intro dr dc h
      refine ⟨h.1, h.2.1, ?_⟩
      have h3 := h.2.2
      rcases hk with hk | hk | hk <;> rw [hk] at h3 <;> simp only at h3 <;> omega
    have gen : ∀ (l2 : List (Int × Int)) (init : List Square), (∀ x ∈ l2, x ∈ l) →
        (d ∈ l2.foldl (fun moves x => addLineMoves b (opponent p.color) row col moves x.1 x.2) init ↔
          d ∈ init ∨ ∃ x ∈ l2, RayReach b (opponent p.color) row col x.1 x.2 d) := by
      intro l2
      induction l2 with
      | nil => simp
      | cons x l2 ih =>
        intro init hsub
        have hx : IsRay p.kind x.1 x.2 := (hl x.1 x.2).mp (hsub x (List.mem_cons_self _ _))
        obtain ⟨h1, h2, h3⟩ := hray _ _ hx
        rw [List.foldl_cons, ih _ (fun y hy => hsub y (List.mem_cons_of_mem _ hy)),
          mem_addLineMoves b _ row col init x.1 x.2 d hs h1 h2 h3]
        simp only [List.mem_cons, exists_eq_or_imp]
        rw [or_assoc]
    rw [gen l [] (fun x hx => hx)]
    simp only [List.not_mem_nil, false_or]
    constructor
    · rintro ⟨x, hx, hr⟩
      exact ⟨x.1, x.2, (hl x.1 x.2).mp hx, hr⟩
    · rintro ⟨dr, dc, h, hr⟩
      exact ⟨(dr, dc), (hl dr dc).mpr h, hr⟩
  unfold getPieceMoves
  rcases hk with hk | hk | hk <;> simp only [hk]
  · have h := key _ (fun dr dc => by rw [mem_rookDirs, hk])
    rw [hk] at h; exact h
  · have h := key _ (fun dr dc => by rw [mem_bishopDirs, hk])
    rw [hk] at h; exact h
  · have h := key _ (fun dr dc => by rw [mem_queenDirs, hk])
    rw [hk] at h; exact h

theorem mem_knightOffsets (dr dc : Int) : (dr, dc) ∈ knightOffsets ↔ IsOffset .N dr dc := by
  simp only [knightOffsets, IsOffset, List.mem_cons, List.mem_singleton, List.not_mem_nil,
    or_false, Prod.mk.injEq]
  omega

theorem mem_kingOffsets (dr dc : Int) : (dr, dc) ∈ kingOffsets ↔ IsOffset .K dr dc := by
  simp only [kingOffsets, IsOffset, List.mem_cons, List.mem_singleton, List.not_mem_nil,
    or_false, Prod.mk.injEq]
  omega

theorem opponent_ne (c : Color) : opponent c ≠ c := by
  cases c <;> simp [opponent]

theorem eq_opponent_iff (c x : Color) : x = opponent c ↔ x ≠ c := by
  cases c <;> cases x <;> simp [opponent]

theorem opponent_opponent (c : Color) : opponent (opponent c) = c := by
  cases c <;> simp [opponent]

theorem freeFor_iff (b : Board) (c : Color) (row col : Int) :
    FreeFor b (opponent c) row col ↔ ∀ q, cellAt b row col = some q → q.color ≠ c := by
  unfold FreeFor
  cases h : cellAt b row col with
  | none => simp
  | some q => simp [eq_opponent_iff]

theorem mem_leaperMoves (b : Board) (p : Piece) (row col : Int) (atk : Bool) (d : Square)
    (hk : p.kind = .N ∨ p.kind = .K) :
    d ∈ getPieceMoves p row col b atk ↔
      ∃ dr dc, IsOffset p.kind dr dc ∧ d = ⟨row + dr, col + dc⟩ ∧
        InRange (row + dr) (col + dc) ∧ FreeFor b (opponent p.color) (row + dr) (col + dc) := by
  have key : ∀ l : List (Int × Int), (∀ dr dc, (dr, dc) ∈ l ↔ IsOffset p.kind dr dc) →
      (d ∈ l.foldl
          (fun moves x => (addMove b (opponent p.color) moves (row + x.1) (col + x.2)).1) [] ↔
        ∃ dr dc, IsOffset p.kind dr dc ∧ d = ⟨row + dr, col + dc⟩ ∧
          InRange (row + dr) (col + dc) ∧ FreeFor b (opponent p.color) (row + dr) (col + dc)) := by
    intro l hl
    rw [mem_foldl_acc _ (fun x m => m = ⟨row + x.1, col + x.2⟩ ∧
      InRange (row + x.1) (col + x.2) ∧ FreeFor b (opponent p.color) (row + x.1) (col + x.2))
      (fun acc a m => mem_addMove b _ acc _ _ m)]
    simp only [List.not_mem_nil, false_or]
    constructor
    · rintro ⟨x, hx, hr⟩
      exact ⟨x.1, x.2, (hl x.1 x.2).mp hx, hr⟩
    · rintro ⟨dr, dc, h, hr⟩
      exact ⟨(dr, dc), (hl dr dc).mpr h, hr⟩
  unfold getPieceMoves
  rcases hk with hk | hk <;> simp only [hk]
  · have h := key _ (fun dr dc => by rw [mem_knightOffsets, hk])
    rw [hk] at h; exact h
  · have h := key _ (fun dr dc => by rw [mem_kingOffsets, hk])
    rw [hk] at h; exact h

/-- Extra fuel does not change the result of the loop once the square reached
after `n` steps is off the board. -/
theorem lineLoop_succ (b : Board) (opp : Color) (dr dc : Int) (n : Nat) (r c : Int)
    (moves : List Square) (h : ¬ InRange (r + n * dr) (c + n * dc)) :
    lineLoop b opp dr dc (n + 1) r c moves = lineLoop b opp dr dc n r c moves := by
  induction n generalizing r c moves with
  | zero =>
    simp only [Nat.cast_zero, zero_mul, add_zero, InRange] at h
    simp [lineLoop, h]
  | succ n ih =>
    rw [lineLoop]
    conv_rhs => rw [lineLoop]
    split
    · split
      · apply ih
        have e1 : r + dr + (n : Int) * dr = r + ((n + 1 : Nat) : Int) * dr := by push_cast; ring
        have e2 : c + dc + (n : Int) * dc = c + ((n + 1 : Nat) : Int) * dc := by push_cast; ring
        rw [e1, e2]; exact h
      · rfl
    · rfl

/-- The fuel of `addLineMoves` is enough: from a square of the board, along any
of the 8 directions, the loop with more than 8 iterations allowed returns what
it returns with 8. -/
theorem lineLoop_fuel (b : Board) (opp : Color) (row col dr dc : Int) (moves : List Square)
    (hs : InRange row col) (hdr : dr = -1 ∨ dr = 0 ∨ dr = 1) (hdc : dc = -1 ∨ dc = 0 ∨ dc = 1)
    (hne : dr ≠ 0 ∨ dc ≠ 0) (n : Nat) :
    lineLoop b opp dr dc (8 + n) (row + dr) (col + dc) moves =
      lineLoop b opp dr dc 8 (row + dr) (col + dc) moves := by
  induction n with
  | zero => rfl
  | succ n ih =>
    rw [← ih, ← Nat.add_assoc]
    apply lineLoop_succ
    unfold InRange at hs ⊢
    push_cast
    rcases hdr with h | h | h <;> rcases hdc with h2 | h2 | h2 <;> subst h <;> subst h2 <;>
      omega

theorem readCell_inRange (b : Board) (r c : Int) (hb : Is8x8 b) (hr : InRange r c) :
    readCell b r c = some (cellAt b r c) := by
  obtain ⟨h0, h1, h2, h3⟩ := hr
  have hlt : r.toNat < b.length := by rw [hb.1]; omega
  have hline : b[r.toNat]? = some b[r.toNat] := List.getElem?_eq_getElem hlt
  have hlen : (b[r.toNat]).length = 8 := hb.2 _ (List.getElem_mem _)
  have hc : c.toNat < (b[r.toNat]).length := by rw [hlen]; omega
  unfold cellAt readCell
  simp [h0, h2, hline, hc]

theorem addMoveChecked_eq (b : Board) (opp : Color) (moves : List Square) (r c : Int)
    (hb : Is8x8 b) : addMoveChecked b opp moves r c = some (addMove b opp moves r c) := by
  unfold addMoveChecked addMove
  split
  · rename_i h
    rw [readCell_inRange b r c hb h]
    cases cellAt b r c with
    | none => rfl
    | some q => simp only; split <;> rfl
  · rfl

theorem lineLoopChecked_eq (b : Board) (opp : Color) (dr dc : Int) (fuel : Nat) (r c : Int)
    (moves : List Square) (hb : Is8x8 b) :
    lineLoopChecked b opp dr dc fuel r c moves = some (lineLoop b opp dr dc fuel r c moves) := by
  induction fuel generalizing r c moves with
  | zero => rfl
  | succ n ih =>
    unfold lineLoopChecked lineLoop
    split
    · rename_i h
      rw [readCell_inRange b r c hb h]
      cases cellAt b r c with
      | none => exact ih _ _ _
      | some q => simp only; split <;> rfl
    · rfl

theorem foldlM_some {α β : Type} (f : β → α → Option β) (g : β → α → β)
    (h : ∀ acc a, f acc a = some (g acc a)) (l : List α) (init : β) :
    l.foldlM f init = some (l.foldl g init) := by
  induction l generalizing init with
  | nil => rfl
  | cons a l ih => simp [List.foldlM, h, ih]

theorem getPieceMovesChecked_eq (b : Board) (p : Piece) (row col : Int) (atk : Bool)
    (hb : Is8x8 b) (hs : InRange row col) :
    getPieceMovesChecked p row col b atk = some (getPieceMoves p row col b atk) := by
  have hline : ∀ l : List (Int × Int),
      l.foldlM (fun moves d => addLineMovesChecked b (opponent p.color) row col moves d.1 d.2) [] =
        some (l.foldl (fun moves d => addLineMoves b (opponent p.color) row col moves d.1 d.2) []) :=
    fun l => foldlM_some _ _ (fun acc a => lineLoopChecked_eq b _ _ _ _ _ _ _ hb) l []
  have hleap : ∀ l : List (Int × Int),
      l.foldlM (fun moves d =>
          (addMoveChecked b (opponent p.color) moves (row + d.1) (col + d.2)).map Prod.fst) [] =
        some (l.foldl (fun moves d =>
          (addMove b (opponent p.color) moves (row + d.1) (col + d.2)).1) []) :=
    fun l => foldlM_some _ _ (fun acc a => by rw [addMoveChecked_eq _ _ _ _ _ hb]; rfl) l []
  unfold getPieceMovesChecked getPieceMoves
  cases hk : p.kind with
  | R => exact hline _
  | B => exact hline _
  | Q => exact hline _
  | N => exact hleap _
  | K => exact hleap _
  | P =>
    simp only
    have hd : (if p.color = Color.w then (-1 : Int) else 1) = pawnDir p.color := rfl
    have hst : (if p.color = Color.w then (6 : Int) else 1) = pawnStartRow p.color := rfl
    simp only [hd, hst]
    have hfw : (if 0 ≤ row + pawnDir p.color ∧ row + pawnDir p.color < 8 then
          match readCell b (row + pawnDir p.color) col with
          | none => none
          | some none =>
            if row = pawnStartRow p.color then
              match readCell b (row + 2 * pawnDir p.color) col with
              | none => none
              | some none => some [⟨row + pawnDir p.color, col⟩, ⟨row + 2 * pawnDir p.color, col⟩]
              | some (some _) => some [⟨row + pawnDir p.color, col⟩]
            else some [⟨row + pawnDir p.color, col⟩]
          | some (some _) => some []
        else some []) =
        some (if 0 ≤ row + pawnDir p.color ∧ row + pawnDir p.color < 8 ∧
              cellAt b (row + pawnDir p.color) col = none then
            if row = pawnStartRow p.color ∧ cellAt b (row + 2 * pawnDir p.color) col = none then
              [⟨row + pawnDir p.color, col⟩, ⟨row + 2 * pawnDir p.color, col⟩]
            else [⟨row + pawnDir p.color, col⟩]
          else ([] : List Square)) := by
      by_cases h1 : 0 ≤ row + pawnDir p.color ∧ row + pawnDir p.color < 8
      · rw [if_pos h1, readCell_inRange b _ _ hb ⟨h1.1, h1.2, hs.2.2⟩]
        cases hc : cellAt b (row + pawnDir p.color) col with
        | none =>
          simp only [h1, true_and, if_true]
          by_cases h2 : row = pawnStartRow p.color
          · have hin : InRange (row + 2 * pawnDir p.color) col := by
              unfold InRange pawnDir pawnStartRow at *
              split at h2 <;> simp_all
            rw [if_pos h2, readCell_inRange b _ _ hb hin]
            cases hc2 : cellAt b (row + 2 * pawnDir p.color) col with
            | none => simp [h2]
            | some q => simp [h2]
          · simp [h2]
        | some q => simp
      · rw [if_neg h1]
        have : ¬ (0 ≤ row + pawnDir p.color ∧ row + pawnDir p.color < 8 ∧
            cellAt b (row + pawnDir p.color) col = none) := fun h => h1 ⟨h.1, h.2.1⟩
        rw [if_neg this]
    rw [hfw, Option.some_bind]
    apply foldlM_some
    intro acc dc
    split
    · rename_i h
      rw [readCell_inRange b _ _ hb h]
      cases hc : cellAt b (row + pawnDir p.color) (col + dc) with
      | none => simp [h]
      | some q =>
        simp only [h, true_and, and_self]
        split <;> rfl
    · rename_i h
      rw [if_neg]
      intro h2
      exact h ⟨h2.1, h2.2.1, h2.2.2.1, h2.2.2.2.1⟩

theorem getPieceMoves_inRange (b : Board) (p : Piece) (row col : Int) (atk : Bool) (d : Square)
    (hs : InRange row col) (hd : d ∈ getPieceMoves p row col b atk) : InRange d.row d.col := by
  cases hk : p.kind with
  | P =>
    rw [mem_pawnMoves b p row col atk d hk] at hd
    rcases hd with ⟨rfl, h1, h2, _⟩ | ⟨rfl, h1, h2, _, h3, _⟩ | ⟨dc, _, rfl, h, _⟩
    · exact ⟨h1, h2, hs.2.2⟩
    · refine ⟨?_, ?_, hs.2.2⟩ <;>
        (unfold pawnDir pawnStartRow at *; split at h3 <;> simp_all)
    · exact h
  | R =>
    obtain ⟨dr, dc, _, k, _, rfl, h, _⟩ :=
      (mem_slidingMoves b p row col atk d hs (Or.inl hk)).mp hd
    exact h
  | B =>
    obtain ⟨dr, dc, _, k, _, rfl, h, _⟩ :=
      (mem_slidingMoves b p row col atk d hs (Or.inr (Or.inl hk))).mp hd
    exact h
  | Q =>
    obtain ⟨dr, dc, _, k, _, rfl, h, _⟩ :=
      (mem_slidingMoves b p row col atk d hs (Or.inr (Or.inr hk))).mp hd
    exact h
  | N =>
    obtain ⟨dr, dc, _, rfl, h, _⟩ := (mem_leaperMoves b p row col atk d (Or.inl hk)).mp hd
    exact h
  | K =>
    obtain ⟨dr, dc, _, rfl, h, _⟩ := (mem_leaperMoves b p row col atk d (Or.inr hk)).mp hd
    exact h

theorem getPieceMoves_free (b : Board) (p : Piece) (row col : Int) (atk : Bool) (d : Square)
    (hs : InRange row col) (hm : p.kind ≠ .P ∨ atk = false)
    (hd : d ∈ getPieceMoves p row col b atk) : FreeFor b (opponent p.color) d.row d.col := by
  cases hk : p.kind with
  | P =>
    have hatk : atk = false := by
      rcases hm with h | h
      · exact absurd hk h
      · exact h
    rw [mem_pawnMoves b p row col atk d hk] at hd
    rcases hd with ⟨rfl, _, _, h⟩ | ⟨rfl, _, _, _, _, h⟩ | ⟨dc, _, rfl, _, q, hq, h⟩
    · exact Or.inl h
    · exact Or.inl h
    · right
      refine ⟨q, hq, ?_⟩
      rcases h with h | h
      · rw [hatk] at h; exact absurd h (by decide)
      · exact h
  | R =>
    obtain ⟨dr, dc, _, k, _, rfl, _, _, h⟩ :=
      (mem_slidingMoves b p row col atk d hs (Or.inl hk)).mp hd
    exact h
  | B =>
    obtain ⟨dr, dc, _, k, _, rfl, _, _, h⟩ :=
      (mem_slidingMoves b p row col atk d hs (Or.inr (Or.inl hk))).mp hd
    exact h
  | Q =>
    obtain ⟨dr, dc, _, k, _, rfl, _, _, h⟩ :=
      (mem_slidingMoves b p row col atk d hs (Or.inr (Or.inr hk))).mp hd
    exact h
  | N =>
    obtain ⟨dr, dc, _, rfl, _, h⟩ := (mem_leaperMoves b p row col atk d (Or.inl hk)).mp hd
    exact h
  | K =>
    obtain ⟨dr, dc, _, rfl, _, h⟩ := (mem_leaperMoves b p row col atk d (Or.inr hk)).mp hd
    exact h

/-! ## Claims on move generation -/

/-- C5, as stated, fails: on the initial board the white pawn on e2 (6,4) has
the empty forward-diagonal square (5,3) on the board, and `getPieceMoves` in
attack mode does not return it. -/
theorem pawn_attack_empty_diagonal_not_offered :
    Is8x8 initialBoard ∧ InRange 6 4 ∧ cellAt initialBoard 6 4 = some wP ∧
      InRange (6 + pawnDir wP.color) (4 + -1) ∧
      cellAt initialBoard (6 + pawnDir wP.color) (4 + -1) = none ∧
      (⟨6 + pawnDir wP.color, 4 + -1⟩ : Square) ∉ getPieceMoves wP 6 4 initialBoard true := by
  decide

/-- C5, amended: in attack mode a forward-diagonal square of a pawn that is on
the board is a destination of `getPieceMoves` exactly when it is occupied, by
a piece of either colour; an empty diagonal square is not offered. -/
theorem pawn_attack_diagonal_iff_occupied (b : Board) (p : Piece) (row col dc : Int)
    (hb : Is8x8 b) (hs : InRange row col) (hk : p.kind = .P) (hdc : dc = -1 ∨ dc = 1)
    (hin : InRange (row + pawnDir p.color) (col + dc)) :
    (⟨row + pawnDir p.color, col + dc⟩ : Square) ∈ getPieceMoves p row col b true ↔
      ∃ q, cellAt b (row + pawnDir p.color) (col + dc) = some q := by
  have _ := hb
  have _ := hs
  rw [mem_pawnMoves b p row col true _ hk]
  constructor
  · rintro (⟨h, _⟩ | ⟨h, _⟩ | ⟨dc2, _, h, _, q, hq, _⟩)
    · simp only [Square.mk.injEq] at h; omega
    · simp only [Square.mk.injEq] at h; omega
    · simp only [Square.mk.injEq] at h
      have : dc = dc2 := by omega
      subst this
      exact ⟨q, hq⟩
  · rintro ⟨q, hq⟩
    exact Or.inr (Or.inr ⟨dc, hdc, rfl, hin, q, hq, Or.inl rfl⟩)

theorem pawn_attack_diagonal_iff_occupied_witness :
    ((⟨5 + pawnDir wP.color, 3 + 1⟩ : Square) ∈ getPieceMoves wP 5 3 pawnChainBoard true ↔
      ∃ q, cellAt pawnChainBoard (5 + pawnDir wP.color) (3 + 1) = some q) :=
  pawn_attack_diagonal_iff_occupied pawnChainBoard wP 5 3 1 (by decide) (by decide) rfl
    (Or.inr rfl) (by decide)

/-- C6: for a rook, bishop or queen on a square of the board, `d` is a
destination of `getPieceMoves` iff `d` lies on one of the rays of the piece
(`IsRay`), on the board, every square strictly between is empty, and `d` is
empty or holds a piece of the opposite colour (`RayReach`). -/
theorem sliding_moves_iff_ray (b : Board) (p : Piece) (row col : Int) (atk : Bool) (d : Square)
    (hb : Is8x8 b) (hs : InRange row col) (hk : p.kind = .R ∨ p.kind = .B ∨ p.kind = .Q) :
    d ∈ getPieceMoves p row col b atk ↔
      ∃ dr dc, IsRay p.kind dr dc ∧
        ∃ k : Nat, 1 ≤ k ∧ d = ⟨row + k * dr, col + k * dc⟩ ∧ InRange d.row d.col ∧
          (∀ j : Nat, 1 ≤ j → j < k → cellAt b (row + j * dr) (col + j * dc) = none) ∧
          (cellAt b d.row d.col = none ∨
            ∃ q, cellAt b d.row d.col = some q ∧ q.color = opponent p.color) := by
  have _ := hb
  exact mem_slidingMoves b p row col atk d hs hk

theorem sliding_moves_iff_ray_witness :
    ((⟨4, 6⟩ : Square) ∈ getPieceMoves wQ 7 3 pawnChainBoard false ↔
      ∃ dr dc, IsRay wQ.kind dr dc ∧
        ∃ k : Nat, 1 ≤ k ∧ (⟨4, 6⟩ : Square) = ⟨7 + k * dr, 3 + k * dc⟩ ∧
          InRange (⟨4, 6⟩ : Square).row (⟨4, 6⟩ : Square).col ∧
          (∀ j : Nat, 1 ≤ j → j < k → cellAt pawnChainBoard (7 + j * dr) (3 + j * dc) = none) ∧
          (cellAt pawnChainBoard (⟨4, 6⟩ : Square).row (⟨4, 6⟩ : Square).col = none ∨
            ∃ q, cellAt pawnChainBoard (⟨4, 6⟩ : Square).row (⟨4, 6⟩ : Square).col = some q ∧
              q.color = opponent wQ.color)) :=
  sliding_moves_iff_ray pawnChainBoard wQ 7 3 false ⟨4, 6⟩ (by decide) (by decide)
    (Or.inr (Or.inr rfl))

/-- C7: with attack mode off, the destinations of a pawn are exactly: the square
one step forward iff it is on the board and empty; the square two steps forward
iff the pawn is on its start rank and both squares are empty; each forward
diagonal square iff it is on the board and holds a piece of the opposite
colour. Forward is `pawnDir`: -1 for White, +1 for Black; the start rank is
`pawnStartRow`: 6 for White, 1 for Black. -/
theorem pawn_moves_iff (b : Board) (p : Piece) (row col : Int) (d : Square)
    (hb : Is8x8 b) (hs : InRange row col) (hk : p.kind = .P) :
    d ∈ getPieceMoves p row col b false ↔
      (d = ⟨row + pawnDir p.color, col⟩ ∧ InRange (row + pawnDir p.color) col ∧
        cellAt b (row + pawnDir p.color) col = none) ∨
      (d = ⟨row + 2 * pawnDir p.color, col⟩ ∧ row = pawnStartRow p.color ∧
        cellAt b (row + pawnDir p.color) col = none ∧
        cellAt b (row + 2 * pawnDir p.color) col = none) ∨
      (d = ⟨row + pawnDir p.color, col - 1⟩ ∧ InRange (row + pawnDir p.color) (col - 1) ∧
        ∃ q, cellAt b (row + pawnDir p.color) (col - 1) = some q ∧
          q.color = opponent p.color) ∨
      (d = ⟨row + pawnDir p.color, col + 1⟩ ∧ InRange (row + pawnDir p.color) (col + 1) ∧
        ∃ q, cellAt b (row + pawnDir p.color) (col + 1) = some q ∧
          q.color = opponent p.color) := by
  have _ := hb
  rw [mem_pawnMoves b p row col false d hk]
  constructor
  · rintro (⟨h, h1, h2, h3⟩ | ⟨h, _, _, h3, h4, h5⟩ | ⟨dc, hdc, h, hin, q, hq, hc⟩)
    · exact Or.inl ⟨h, ⟨h1, h2, hs.2.2⟩, h3⟩
    · exact Or.inr (Or.inl ⟨h, h4, h3, h5⟩)
    · have hc2 : q.color = opponent p.color := by
        rcases hc with hc | hc
        · exact absurd hc (by decide)
        · exact hc
      rcases hdc with rfl | rfl
      · exact Or.inr (Or.inr (Or.inl ⟨h, hin, q, hq, hc2⟩))
      · exact Or.inr (Or.inr (Or.inr ⟨h, hin, q, hq, hc2⟩))
  · rintro (⟨h, h1, h3⟩ | ⟨h, h4, h3, h5⟩ | ⟨h, hin, q, hq, hc⟩ | ⟨h, hin, q, hq, hc⟩)
    · exact Or.inl ⟨h, h1.1, h1.2.1, h3⟩
    · refine Or.inr (Or.inl ⟨h, ?_, ?_, h3, h4, h5⟩) <;>
        (unfold pawnDir pawnStartRow at *; split at h4 <;> simp_all)
    · exact Or.inr (Or.inr ⟨-1, Or.inl rfl, h, hin, q, hq, Or.inr hc⟩)
    · exact Or.inr (Or.inr ⟨1, Or.inr rfl, h, hin, q, hq, Or.inr hc⟩)

theorem pawn_moves_iff_witness :
    ((⟨4, 4⟩ : Square) ∈ getPieceMoves wP 6 4 initialBoard false ↔
      ((⟨4, 4⟩ : Square) = ⟨6 + pawnDir wP.color, 4⟩ ∧ InRange (6 + pawnDir wP.color) 4 ∧
        cellAt initialBoard (6 + pawnDir wP.color) 4 = none) ∨
      ((⟨4, 4⟩ : Square) = ⟨6 + 2 * pawnDir wP.color, 4⟩ ∧ 6 = pawnStartRow wP.color ∧
        cellAt initialBoard (6 + pawnDir wP.color) 4 = none ∧
        cellAt initialBoard (6 + 2 * pawnDir wP.color) 4 = none) ∨
      ((⟨4, 4⟩ : Square) = ⟨6 + pawnDir wP.color, 4 - 1⟩ ∧
        InRange (6 + pawnDir wP.color) (4 - 1) ∧
        ∃ q, cellAt initialBoard (6 + pawnDir wP.color) (4 - 1) = some q ∧
          q.color = opponent wP.color) ∨
      ((⟨4, 4⟩ : Square) = ⟨6 + pawnDir wP.color, 4 + 1⟩ ∧
        InRange (6 + pawnDir wP.color) (4 + 1) ∧
        ∃ q, cellAt initialBoard (6 + pawnDir wP.color) (4 + 1) = some q ∧
          q.color = opponent wP.color)) :=
  pawn_moves_iff initialBoard wP 6 4 ⟨4, 4⟩ (by decide) (by decide) rfl

/-- C8: for a knight or a king of colour `c` on a square of the board, the
destinations of `getPieceMoves` are exactly the squares `(row+dr, col+dc)`, with
`(dr, dc)` an offset of the piece (`IsOffset`), that are on the board and do
not hold a piece of colour `c`; a square holding an opponent piece is a
destination. -/
theorem leaper_moves_iff (b : Board) (p : Piece) (row col : Int) (atk : Bool) (d : Square)
    (hb : Is8x8 b) (hs : InRange row col) (hk : p.kind = .N ∨ p.kind = .K) :
    (d ∈ getPieceMoves p row col b atk ↔
      ∃ dr dc, IsOffset p.kind dr dc ∧ d = ⟨row + dr, col + dc⟩ ∧
        InRange (row + dr) (col + dc) ∧
        ∀ q, cellAt b (row + dr) (col + dc) = some q → q.color ≠ p.color) ∧
    (∀ dr dc q, IsOffset p.kind dr dc → InRange (row + dr) (col + dc) →
      cellAt b (row + dr) (col + dc) = some q → q.color = opponent p.color →
      (⟨row + dr, col + dc⟩ : Square) ∈ getPieceMoves p row col b atk) := by
  have _ := hb
  have _ := hs
  constructor
  · rw [mem_leaperMoves b p row col atk d hk]
    simp only [freeFor_iff]
  · intro dr dc q ho hin hq hc
    rw [mem_leaperMoves b p row col atk _ hk]
    exact ⟨dr, dc, ho, rfl, hin, Or.inr ⟨q, hq, hc⟩⟩

theorem leaper_moves_iff_witness :
    (((⟨5, 2⟩ : Square) ∈ getPieceMoves wN 7 1 initialBoard false ↔
      ∃ dr dc, IsOffset wN.kind dr dc ∧ (⟨5, 2⟩ : Square) = ⟨7 + dr, 1 + dc⟩ ∧
        InRange (7 + dr) (1 + dc) ∧
        ∀ q, cellAt initialBoard (7 + dr) (1 + dc) = some q → q.color ≠ wN.color) ∧
    (∀ dr dc q, IsOffset wN.kind dr dc → InRange (7 + dr) (1 + dc) →
      cellAt initialBoard (7 + dr) (1 + dc) = some q → q.color = opponent wN.color →
      (⟨7 + dr, 1 + dc⟩ : Square) ∈ getPieceMoves wN 7 1 initialBoard false)) :=
  leaper_moves_iff initialBoard wN 7 1 false ⟨5, 2⟩ (by decide) (by decide) (Or.inl rfl)

/-- C9, as stated, fails: after 1. e4 d5 2. d3 the white pawn on d3 (5,3) has
the white pawn on e4 (4,4) on a forward diagonal, and `getPieceMoves` in attack
mode returns (4,4), a square occupied by a piece of the colour of the mover. -/
theorem pawn_attack_friendly_square_offered :
    Is8x8 pawnChainBoard ∧ InRange 5 3 ∧ cellAt pawnChainBoard 5 3 = some wP ∧
      cellAt pawnChainBoard 4 4 = some wP ∧
      (⟨4, 4⟩ : Square) ∈ getPieceMoves wP 5 3 pawnChainBoard true := by
  decide

/-- C9, amended: for every piece and either value of the attack-mode flag, no
destination of `getPieceMoves` holds a piece of the colour of the mover, except
a forward-diagonal square of a pawn when attack mode is on. -/
theorem no_friendly_destination (b : Board) (p : Piece) (row col : Int) (atk : Bool)
    (d : Square) (q : Piece) (hb : Is8x8 b) (hs : InRange row col)
    (hm : ¬ (p.kind = .P ∧ atk = true ∧ d.row = row + pawnDir p.color ∧
      (d.col = col - 1 ∨ d.col = col + 1)))
    (hd : d ∈ getPieceMoves p row col b atk)
    (hq : cellAt b d.row d.col = some q) : q.color ≠ p.color := by
  have _ := hb
  by_cases hpa : p.kind ≠ .P ∨ atk = false
  · exact (freeFor_iff b p.color d.row d.col).mp
      (getPieceMoves_free b p row col atk d hs hpa hd) q hq
  · have hk : p.kind = .P := by
      by_contra h; exact hpa (Or.inl h)
    have ha : atk = true := by
      cases atk
      · exact absurd (Or.inr rfl) hpa
      · rfl
    rw [mem_pawnMoves b p row col atk d hk] at hd
    rcases hd with ⟨rfl, _, _, h⟩ | ⟨rfl, _, _, _, _, h⟩ | ⟨dc, hdc, rfl, _⟩
    · rw [h] at hq; exact Option.noConfusion hq
    · rw [h] at hq; exact Option.noConfusion hq
    · exfalso
      apply hm
      refine ⟨hk, ha, rfl, ?_⟩
      rcases hdc with rfl | rfl
      · exact Or.inl rfl
      · exact Or.inr rfl

theorem no_friendly_destination_witness :
    (⟨3, 3⟩ : Square) ∈ getPieceMoves wP 4 4 pawnChainBoard false ∧ bP.color ≠ wP.color :=
  ⟨by decide, no_friendly_destination pawnChainBoard wP 4 4 false ⟨3, 3⟩ bP (by decide)
    (by decide) (by decide) (by decide) (by decide)⟩

/-- C10: on an 8x8 board, from a square of the board, no read of
`getPieceMoves` falls outside the board: the generator with checked reads
returns the moves of `getPieceMoves` and never fails; and every destination
has row and column in `[0,7]`. -/
theorem reads_and_moves_in_range (b : Board) (p : Piece) (row col : Int) (atk : Bool)
    (hb : Is8x8 b) (hs : InRange row col) :
    getPieceMovesChecked p row col b atk = some (getPieceMoves p row col b atk) ∧
      ∀ d ∈ getPieceMoves p row col b atk, 0 ≤ d.row ∧ d.row < 8 ∧ 0 ≤ d.col ∧ d.col < 8 :=
  ⟨getPieceMovesChecked_eq b p row col atk hb hs,
    fun d hd => getPieceMoves_inRange b p row col atk d hs hd⟩

theorem reads_and_moves_in_range_witness :
    getPieceMovesChecked wP 6 0 initialBoard true = some (getPieceMoves wP 6 0 initialBoard true) ∧
      ∀ d ∈ getPieceMoves wP 6 0 initialBoard true,
        0 ≤ d.row ∧ d.row < 8 ∧ 0 ≤ d.col ∧ d.col < 8 :=
  reads_and_moves_in_range initialBoard wP 6 0 true (by decide) (by decide)

/-! ## Check detection depends on the colours only -/

theorem sameColors_cases (b1 b2 : Board) (h : SameColors b1 b2) (r c : Int) :
    (cellAt b1 r c = none ∧ cellAt b2 r c = none) ∨
      ∃ q1 q2, cellAt b1 r c = some q1 ∧ cellAt b2 r c = some q2 ∧ q1.color = q2.color := by
  have := h r c
  cases h1 : cellAt b1 r c with
  | none =>
    cases h2 : cellAt b2 r c with
    | none => exact Or.inl ⟨rfl, rfl⟩
    | some q2 => rw [h1, h2] at this; simp at this
  | some q1 =>
    cases h2 : cellAt b2 r c with
    | none => rw [h1, h2] at this; simp at this
    | some q2 =>
      rw [h1, h2] at this
      exact Or.inr ⟨q1, q2, rfl, rfl, by simpa using this⟩

theorem addMove_congr (b1 b2 : Board) (h : SameColors b1 b2) (opp : Color)
    (moves : List Square) (r c : Int) : addMove b1 opp moves r c = addMove b2 opp moves r c := by
  unfold addMove
  rcases sameColors_cases b1 b2 h r c with ⟨h1, h2⟩ | ⟨q1, q2, h1, h2, hc⟩
  · rw [h1, h2]
  · rw [h1, h2]; simp only [hc]

theorem lineLoop_congr (b1 b2 : Board) (h : SameColors b1 b2) (opp : Color) (dr dc : Int)
    (fuel : Nat) (r c : Int) (moves : List Square) :
    lineLoop b1 opp dr dc fuel r c moves = lineLoop b2 opp dr dc fuel r c moves := by
  induction fuel generalizing r c moves with
  | zero => rfl
  | succ n ih =>
    unfold lineLoop
    rcases sameColors_cases b1 b2 h r c with ⟨h1, h2⟩ | ⟨q1, q2, h1, h2, hc⟩
    · rw [h1, h2]; simp only [ih]
    · rw [h1, h2]; simp only [hc]

theorem getPieceMoves_congr (b1 b2 : Board) (h : SameColors b1 b2) (p : Piece)
    (row col : Int) (atk : Bool) :
    getPieceMoves p row col b1 atk = getPieceMoves p row col b2 atk := by
  have hline : ∀ moves (d : Int × Int),
      addLineMoves b1 (opponent p.color) row col moves d.1 d.2 =
        addLineMoves b2 (opponent p.color) row col moves d.1 d.2 :=
    fun moves d => lineLoop_congr b1 b2 h _ _ _ _ _ _ _
  have hleap : ∀ moves (d : Int × Int),
      (addMove b1 (opponent p.color) moves (row + d.1) (col + d.2)).1 =
        (addMove b2 (opponent p.color) moves (row + d.1) (col + d.2)).1 :=
    fun moves d => by rw [addMove_congr b1 b2 h]
  have hnone : ∀ r c, cellAt b1 r c = none ↔ cellAt b2 r c = none := by
    intro r c
    rcases sameColors_cases b1 b2 h r c with ⟨h1, h2⟩ | ⟨q1, q2, h1, h2, hc⟩ <;> simp [h1, h2]
  unfold getPieceMoves
  simp only [hline, hleap, hnone]
  cases p.kind with
  | P =>
    simp only
    congr 1
    funext moves dc
    rcases sameColors_cases b1 b2 h (row + if p.color = Color.w then -1 else 1) (col + dc)
      with ⟨h1, h2⟩ | ⟨q1, q2, h1, h2, hc⟩
    · rw [h1, h2]
    · rw [h1, h2]; simp only [hc]
  | _ => rfl

theorem isSquareAttacked_congr (b1 b2 : Board) (h : SameColors b1 b2) (row col : Int)
    (att : Color)
    (hatt : ∀ r c q, q.color = att → (cellAt b1 r c = some q ↔ cellAt b2 r c = some q)) :
    isSquareAttacked row col att b1 = isSquareAttacked row col att b2 := by
  unfold isSquareAttacked
  congr 1
  funext rc
  rcases sameColors_cases b1 b2 h rc.1 rc.2 with ⟨h1, h2⟩ | ⟨q1, q2, h1, h2, hc⟩
  · rw [h1, h2]
  · by_cases hq : q1.color = att
    · have : cellAt b2 rc.1 rc.2 = some q1 := (hatt _ _ q1 hq).mp h1
      rw [h1, this]
      simp only [getPieceMoves_congr b1 b2 h]
    · have hq2 : ¬ q2.color = att := by rw [← hc]; exact hq
      rw [h1, h2]
      simp [hq, hq2]

theorem getKingPosition_congr (b1 b2 : Board) (color : Color)
    (h : ∀ r c, cellAt b1 r c = some ⟨color, .K⟩ ↔ cellAt b2 r c = some ⟨color, .K⟩) :
    getKingPosition color b1 = getKingPosition color b2 := by
  unfold getKingPosition
  congr 2
  funext rc
  simp only [h]

theorem isKingInCheck_congr (b1 b2 : Board) (h : SameColors b1 b2) (color : Color)
    (hk : ∀ r c, cellAt b1 r c = some ⟨color, .K⟩ ↔ cellAt b2 r c = some ⟨color, .K⟩)
    (hatt : ∀ r c q, q.color = opponent color →
      (cellAt b1 r c = some q ↔ cellAt b2 r c = some q)) :
    isKingInCheck color b1 = isKingInCheck color b2 := by
  unfold isKingInCheck
  rw [getKingPosition_congr b1 b2 color hk]
  cases getKingPosition color b2 with
  | none => rfl
  | some k => exact isSquareAttacked_congr b1 b2 h _ _ _ hatt

/-- Replacing a piece that is not a king by another piece of the same colour
that is not a king does not change whether the king of that colour is in check. -/
theorem isKingInCheck_replace (T : Board) (r c : Int) (q q2 : Piece) (hT : Is8x8 T)
    (hr : InRange r c) (hq : cellAt T r c = some q) (hc : q2.color = q.color)
    (hk : q.kind ≠ .K) (hk2 : q2.kind ≠ .K) :
    isKingInCheck q.color (setCell T r c (some q2)) = isKingInCheck q.color T := by
  have hcell : ∀ r2 c2, cellAt (setCell T r c (some q2)) r2 c2 =
      if r2 = r ∧ c2 = c then some q2 else cellAt T r2 c2 := by
    intro r2 c2
    split
    · rename_i h; rw [h.1, h.2]; exact cellAt_setCell_same T r c _ hT hr
    · rename_i h; exact cellAt_setCell_ne T r c r2 c2 _ h
  apply isKingInCheck_congr
  · intro r2 c2
    rw [hcell]
    split
    · rename_i h; rw [h.1, h.2, hq]; simp [hc]
    · rfl
  · intro r2 c2
    rw [hcell]
    split
    · rename_i h
      rw [h.1, h.2, hq]
      constructor
      · intro h2; injection h2 with h2; rw [h2] at hk2; exact absurd rfl hk2
      · intro h2; injection h2 with h2; rw [h2] at hk; exact absurd rfl hk
    · rfl
  · intro r2 c2 p hp
    rw [hcell]
    split
    · rename_i h
      rw [h.1, h.2, hq]
      have h1 : p.color ≠ q.color := by rw [hp]; exact opponent_ne _
      constructor
      · intro h2; injection h2 with h2; rw [← h2] at h1; exact absurd hc h1
      · intro h2; injection h2 with h2; rw [← h2] at h1; exact absurd rfl h1
    · rfl

/-! ## The legality filter and the committed board -/

theorem mem_getValidMovesForPiece (b : Board) (p : Piece) (row col : Int) (d : Square) :
    d ∈ getValidMovesForPiece p row col b ↔
      d ∈ getPieceMoves p row col b false ∧ isKingInCheck p.color (tempBoard b p row col d) = false := by
  unfold getValidMovesForPiece tempBoard
  simp [List.mem_filter]

theorem cellAt_tempBoard_dest (b : Board) (p : Piece) (row col : Int) (d : Square)
    (hb : Is8x8 b) (hd : InRange d.row d.col) :
    cellAt (tempBoard b p row col d) d.row d.col = none ∨
      cellAt (tempBoard b p row col d) d.row d.col = some p := by
  unfold tempBoard
  by_cases h : d.row = row ∧ d.col = col
  · left
    rw [h.1, h.2]
    rw [h.1, h.2] at hd
    exact cellAt_setCell_same _ _ _ _ (is8x8_setCell _ _ _ _ hb) hd
  · right
    rw [cellAt_setCell_ne _ _ _ _ _ _ h]
    exact cellAt_setCell_same _ _ _ _ hb hd

theorem is8x8_tempBoard (b : Board) (p : Piece) (row col : Int) (d : Square) (hb : Is8x8 b) :
    Is8x8 (tempBoard b p row col d) :=
  is8x8_setCell _ _ _ _ (is8x8_setCell _ _ _ _ hb)

/-- The board committed by `handleSquareClick` is the scratch board of the
legality filter, up to the promotion of the moved pawn. -/
theorem commitMove_eq (b : Board) (p : Piece) (row col : Int) (d : Square)
    (hp : cellAt b row col = some p) :
    commitMove b row col d.row d.col =
      if cellAt (tempBoard b p row col d) d.row d.col = some wP ∧ d.row = 0 then
        (if cellAt (setCell (tempBoard b p row col d) d.row d.col (some wQ)) d.row d.col = some bP
            ∧ d.row = 7 then
          setCell (setCell (tempBoard b p row col d) d.row d.col (some wQ)) d.row d.col (some bQ)
        else setCell (tempBoard b p row col d) d.row d.col (some wQ))
      else if cellAt (tempBoard b p row col d) d.row d.col = some bP ∧ d.row = 7 then
        setCell (tempBoard b p row col d) d.row d.col (some bQ)
      else tempBoard b p row col d := by
  unfold commitMove tempBoard
  rw [hp]
  simp only
  split <;> rfl

theorem commitMove_cases (b : Board) (p : Piece) (row col : Int) (d : Square)
    (hb : Is8x8 b) (hd : InRange d.row d.col) (hp : cellAt b row col = some p) :
    commitMove b row col d.row d.col = tempBoard b p row col d ∨
      (cellAt (tempBoard b p row col d) d.row d.col = some p ∧ p.kind = .P ∧
        commitMove b row col d.row d.col =
          setCell (tempBoard b p row col d) d.row d.col (some ⟨p.color, .Q⟩)) := by
  rw [commitMove_eq b p row col d hp]
  have hT := is8x8_tempBoard b p row col d hb
  by_cases h1 : cellAt (tempBoard b p row col d) d.row d.col = some wP ∧ d.row = 0
  · rw [if_pos h1]
    have h7 : ¬ d.row = 7 := by omega
    rw [if_neg (fun h => h7 h.2)]
    right
    rcases cellAt_tempBoard_dest b p row col d hb hd with h | h
    · rw [h] at h1; exact absurd h1.1 (by simp)
    · have : p = wP := by rw [h] at h1; exact Option.some.inj h1.1
      subst this
      exact ⟨h, rfl, rfl⟩
  · rw [if_neg h1]
    by_cases h2 : cellAt (tempBoard b p row col d) d.row d.col = some bP ∧ d.row = 7
    · rw [if_pos h2]
      right
      rcases cellAt_tempBoard_dest b p row col d hb hd with h | h
      · rw [h] at h2; exact absurd h2.1 (by simp)
      · have : p = bP := by rw [h] at h2; exact Option.some.inj h2.1
        subst this
        exact ⟨h, rfl, rfl⟩
    · rw [if_neg h2]
      exact Or.inl rfl

theorem isKingInCheck_commitMove (b : Board) (p : Piece) (row col : Int) (d : Square)
    (hb : Is8x8 b) (hd : InRange d.row d.col) (hp : cellAt b row col = some p) :
    isKingInCheck p.color (commitMove b row col d.row d.col) =
      isKingInCheck p.color (tempBoard b p row col d) := by
  rcases commitMove_cases b p row col d hb hd hp with h | ⟨h1, h2, h3⟩
  · rw [h]
  · rw [h3]
    exact isKingInCheck_replace _ _ _ p ⟨p.color, .Q⟩ (is8x8_tempBoard b p row col d hb) hd h1 rfl
      (by rw [h2]; decide) (fun h => Kind.noConfusion h)

theorem handleSquareClick_move (s : Session) (sel : Selected) (row col : Int)
    (hg : s.gameState = .playing ∨ s.gameState = .check)
    (hsel : s.selectedPiece = some sel)
    (hv : (s.validMoves.any fun m => decide (m.row = row) && decide (m.col = col)) = true) :
    handleSquareClick s row col = moveResult s sel row col := by
  unfold handleSquareClick moveResult
  have hg2 : ¬ (s.gameState ≠ .playing ∧ s.gameState ≠ .check) := by
    rcases hg with h | h <;> simp [h]
  rw [if_neg hg2, hsel]
  simp only [hv, if_true]

theorem any_square_iff (l : List Square) (row col : Int) :
    (l.any fun m => decide (m.row = row) && decide (m.col = col)) = true ↔
      (⟨row, col⟩ : Square) ∈ l := by
  simp only [List.any_eq_true, Bool.and_eq_true, decide_eq_true_eq]
  constructor
  · rintro ⟨m, hm, h1, h2⟩
    have : m = ⟨row, col⟩ := by cases m; simp_all
    rw [← this]; exact hm
  · intro h
    exact ⟨_, h, rfl, rfl⟩

/-- C1: for a session whose board is 8x8, with the piece `p` on the square
`(row, col)` of the board selected and its legal destinations active, a click
on a legal destination `d` commits the board `commitMove` (piece moved,
origin cleared, captured piece replaced, pawn promoted to queen), and on that
board the king of the colour of `p` is not in check. -/
theorem legal_move_leaves_king_safe (s : Session) (p : Piece) (row col : Int) (d : Square)
    (hb : Is8x8 s.board) (hs : InRange row col) (hp : cellAt s.board row col = some p)
    (hg : s.gameState = .playing ∨ s.gameState = .check)
    (hsel : s.selectedPiece = some ⟨p, row, col⟩)
    (hv : s.validMoves = getValidMovesForPiece p row col s.board)
    (hd : d ∈ getValidMovesForPiece p row col s.board) :
    (handleSquareClick s d.row d.col).board = commitMove s.board row col d.row d.col ∧
      isKingInCheck p.color (handleSquareClick s d.row d.col).board = false := by
  have hany : (s.validMoves.any fun m => decide (m.row = d.row) && decide (m.col = d.col)) = true := by
    rw [any_square_iff, hv]; exact hd
  have hboard : (handleSquareClick s d.row d.col).board = commitMove s.board row col d.row d.col := by
    rw [handleSquareClick_move s _ d.row d.col hg hsel hany]
    rfl
  refine ⟨hboard, ?_⟩
  rw [hboard]
  obtain ⟨hd1, hd2⟩ := (mem_getValidMovesForPiece s.board p row col d).mp hd
  rw [isKingInCheck_commitMove s.board p row col d hb
    (getPieceMoves_inRange s.board p row col false d hs hd1) hp]
  exact hd2

/-! ## Kings -/

theorem nodup_allSquares : allSquares.Nodup := by decide

theorem countP_update {α : Type} (l : List α) (hl : l.Nodup) (f g : α → Bool) (x : α)
    (hx : x ∈ l) (h : ∀ y, y ≠ x → f y = g y) :
    l.countP g + (if f x then 1 else 0) = l.countP f + (if g x then 1 else 0) := by
  induction l with
  | nil => simp at hx
  | cons a l ih =>
    rw [List.nodup_cons] at hl
    by_cases hax : a = x
    · subst hax
      have hcongr : l.countP f = l.countP g := by
        apply List.countP_congr
        intro y hy
        have : y ≠ a := fun e => hl.1 (e ▸ hy)
        rw [h y this]
      rw [List.countP_cons, List.countP_cons, hcongr]
      omega
    · have hx2 : x ∈ l := by
        rcases List.mem_cons.mp hx with e | e
        · exact absurd e.symm hax
        · exact e
      have := ih hl.2 hx2
      rw [List.countP_cons, List.countP_cons, h a hax]
      omega

theorem kingCount_setCell (b : Board) (color : Color) (r c : Int) (v : Cell)
    (hb : Is8x8 b) (hr : InRange r c) :
    kingCount color (setCell b r c v) + (if cellAt b r c = some ⟨color, .K⟩ then 1 else 0) =
      kingCount color b + (if v = some ⟨color, .K⟩ then 1 else 0) := by
  unfold kingCount
  have := countP_update allSquares nodup_allSquares
    (fun rc => decide (cellAt b rc.1 rc.2 = some ⟨color, .K⟩))
    (fun rc => decide (cellAt (setCell b r c v) rc.1 rc.2 = some ⟨color, .K⟩)) (r, c)
    ((mem_allSquares r c).mpr hr)
    (by
      intro y hy
      simp only
      rw [cellAt_setCell_ne]
      intro h
      exact hy (Prod.ext h.1 h.2))
  simp only [decide_eq_true_eq, cellAt_setCell_same b r c v hb hr] at this
  exact this

theorem getKingPosition_unique (b : Board) (color : Color) (r c : Int)
    (hk : kingCount color b = 1) (hr : InRange r c) (hc : cellAt b r c = some ⟨color, .K⟩) :
    getKingPosition color b = some ⟨r, c⟩ := by
  unfold getKingPosition
  unfold kingCount at hk
  rw [List.countP_eq_length_filter, List.length_eq_one] at hk
  obtain ⟨x, hx⟩ := hk
  have hmem : (r, c) ∈ allSquares.filter
      (fun rc => decide (cellAt b rc.1 rc.2 = some ⟨color, .K⟩)) := by
    rw [List.mem_filter]
    exact ⟨(mem_allSquares r c).mpr hr, by simpa using hc⟩
  rw [hx, List.mem_singleton] at hmem
  cases hf : allSquares.find? (fun rc => decide (cellAt b rc.1 rc.2 = some ⟨color, .K⟩)) with
  | none =>
    rw [List.find?_eq_none] at hf
    have := hf (r, c) ((mem_allSquares r c).mpr hr)
    simp [hc] at this
  | some y =>
    have h1 := List.find?_some hf
    have h2 := List.mem_of_find?_eq_some hf
    have hy : y ∈ allSquares.filter
        (fun rc => decide (cellAt b rc.1 rc.2 = some ⟨color, .K⟩)) := by
      rw [List.mem_filter]; exact ⟨h2, h1⟩
    rw [hx, List.mem_singleton] at hy
    rw [hy, ← hmem]
    rfl

theorem moves_subset_attack (b : Board) (p : Piece) (row col : Int) (d : Square)
    (hd : d ∈ getPieceMoves p row col b false) : d ∈ getPieceMoves p row col b true := by
  cases hk : p.kind with
  | P =>
    rw [mem_pawnMoves b p row col _ d hk] at hd ⊢
    rcases hd with h | h | ⟨dc, hdc, h1, h2, q, hq, _⟩
    · exact Or.inl h
    · exact Or.inr (Or.inl h)
    · exact Or.inr (Or.inr ⟨dc, hdc, h1, h2, q, hq, Or.inl rfl⟩)
  | _ =>
    unfold getPieceMoves at hd ⊢
    simp only [hk] at hd ⊢
    exact hd

theorem isSquareAttacked_of_move (b : Board) (p : Piece) (row col : Int) (d : Square)
    (hs : InRange row col) (hp : cellAt b row col = some p)
    (hd : d ∈ getPieceMoves p row col b true) :
    isSquareAttacked d.row d.col p.color b = true := by
  unfold isSquareAttacked
  rw [List.any_eq_true]
  refine ⟨(row, col), (mem_allSquares row col).mpr hs, ?_⟩
  simp only [hp, decide_True, Bool.true_and, List.any_eq_true, Bool.and_eq_true,
    decide_eq_true_eq]
  exact ⟨d, hd, rfl, rfl⟩

/-- When the king of the side not to move is not in check, no destination of
the move generator for a piece of the side to move holds that king. -/
theorem target_not_enemy_king (b : Board) (p : Piece) (row col : Int) (d : Square)
    (hs : InRange row col) (hp : cellAt b row col = some p)
    (hk : kingCount (opponent p.color) b = 1)
    (hsafe : isKingInCheck (opponent p.color) b = false)
    (hd : d ∈ getPieceMoves p row col b false) :
    cellAt b d.row d.col ≠ some ⟨opponent p.color, .K⟩ := by
  intro hc
  have hin := getPieceMoves_inRange b p row col false d hs hd
  have hpos := getKingPosition_unique b _ d.row d.col hk hin hc
  unfold isKingInCheck at hsafe
  rw [hpos] at hsafe
  simp only [opponent_opponent] at hsafe
  rw [isSquareAttacked_of_move b p row col d hs hp (moves_subset_attack b p row col d hd)] at hsafe
  exact absurd hsafe (by decide)

theorem target_not_own_king (b : Board) (p : Piece) (row col : Int) (d : Square)
    (hs : InRange row col) (hd : d ∈ getPieceMoves p row col b false) (k : Kind) :
    cellAt b d.row d.col ≠ some ⟨p.color, k⟩ := by
  intro hc
  exact (freeFor_iff b p.color d.row d.col).mp
    (getPieceMoves_free b p row col false d hs (Or.inr rfl) hd) _ hc rfl

/-! ## Invariant of the reachable sessions -/

/-- The four outcomes of a click. -/
theorem handleSquareClick_cases (s : Session) (row col : Int) :
    handleSquareClick s row col = s ∨
    handleSquareClick s row col = { s with selectedPiece := none, validMoves := [] } ∨
    (∃ piece, s.selectedPiece = none ∧ (s.gameState = .playing ∨ s.gameState = .check) ∧
      cellAt s.board row col = some piece ∧ piece.color = s.turn ∧
      handleSquareClick s row col =
        { s with
          selectedPiece := some ⟨piece, row, col⟩
          validMoves := getValidMovesForPiece piece row col s.board }) ∨
    (∃ sel, s.selectedPiece = some sel ∧ (s.gameState = .playing ∨ s.gameState = .check) ∧
      (⟨row, col⟩ : Square) ∈ s.validMoves ∧
      handleSquareClick s row col = moveResult s sel row col) := by
  by_cases hg : s.gameState = .playing ∨ s.gameState = .check
  · have hg2 : ¬ (s.gameState ≠ .playing ∧ s.gameState ≠ .check) := by
      rcases hg with h | h <;> simp [h]
    cases hsel : s.selectedPiece with
    | some sel =>
      by_cases hv : (s.validMoves.any fun m => decide (m.row = row) && decide (m.col = col)) = true
      · right; right; right
        exact ⟨sel, rfl, hg, (any_square_iff _ _ _).mp hv, handleSquareClick_move s sel row col hg hsel hv⟩
      · right; left
        unfold handleSquareClick
        rw [if_neg hg2, hsel]
        simp only [hv]
        rfl
    | none =>
      cases hc : cellAt s.board row col with
      | none =>
        left
        unfold handleSquareClick
        rw [if_neg hg2, hsel]
        simp only [hc]
      | some piece =>
        by_cases hcol : piece.color = s.turn
        · right; right; left
          refine ⟨piece, rfl, hg, rfl, hcol, ?_⟩
          unfold handleSquareClick
          rw [if_neg hg2, hsel]
          simp only [hc, hcol, if_true]
        · left
          unfold handleSquareClick
          rw [if_neg hg2, hsel]
          simp only [hc, hcol, if_false]
  · left
    unfold handleSquareClick
    have hg2 : s.gameState ≠ .playing ∧ s.gameState ≠ .check := by
      constructor <;> intro h <;> exact hg (by simp [h])
    rw [if_pos hg2]

theorem is8x8_commitMove (b : Board) (r c r2 c2 : Int) (hb : Is8x8 b) :
    Is8x8 (commitMove b r c r2 c2) := by
  unfold commitMove
  simp only
  split <;> split <;> repeat (first | exact hb | apply is8x8_setCell)

theorem kingCount_commitMove (b : Board) (p : Piece) (row col : Int) (d : Square) (color : Color)
    (hb : Is8x8 b) (hs : InRange row col) (hp : cellAt b row col = some p)
    (hd : d ∈ getPieceMoves p row col b false)
    (hnk : cellAt b d.row d.col ≠ some ⟨color, .K⟩) :
    kingCount color (commitMove b row col d.row d.col) = kingCount color b := by
  have hdr := getPieceMoves_inRange b p row col false d hs hd
  have hne : ¬ (row = d.row ∧ col = d.col) := by
    intro h
    have hfree := (freeFor_iff b p.color d.row d.col).mp
      (getPieceMoves_free b p row col false d hs (Or.inr rfl) hd) p
    rw [← h.1, ← h.2] at hfree
    exact hfree hp rfl
  have h1 := kingCount_setCell b color d.row d.col (some p) hb hdr
  have hb1 := is8x8_setCell b d.row d.col (some p) hb
  have h2 := kingCount_setCell (setCell b d.row d.col (some p)) color row col none hb1 hs
  rw [cellAt_setCell_ne _ _ _ _ _ _ hne, hp] at h2
  rw [if_neg hnk] at h1
  have hT : kingCount color (tempBoard b p row col d) = kingCount color b := by
    unfold tempBoard
    simp only [reduceCtorEq, if_false] at h2
    omega
  rcases commitMove_cases b p row col d hb hdr hp with h | ⟨h3, h4, h5⟩
  · rw [h, hT]
  · have h6 := kingCount_setCell (tempBoard b p row col d) color d.row d.col
      (some ⟨p.color, .Q⟩) (is8x8_tempBoard b p row col d hb) hdr
    rw [h3] at h6
    have e1 : ¬ (some p = some (⟨color, .K⟩ : Piece)) := by
      intro e; injection e with e; rw [e] at h4; exact Kind.noConfusion h4
    have e2 : ¬ (some (⟨p.color, .Q⟩ : Piece) = some (⟨color, .K⟩ : Piece)) := by
      intro e; injection e with e; injection e with _ e; exact Kind.noConfusion e
    rw [if_neg e1, if_neg e2] at h6
    rw [h5, ← hT]
    omega

theorem inv_initial : Inv initialSession where
  size := by decide
  kingW := by decide
  kingB := by decide
  safe := by decide
  sel := by intro sp h; exact Option.noConfusion h
  nosel := fun _ => rfl
  status := by decide

theorem inv_moveResult (s : Session) (hi : Inv s) (sel : Selected) (row col : Int)
    (hsel : s.selectedPiece = some sel) (hv : (⟨row, col⟩ : Square) ∈ s.validMoves) :
    Inv (moveResult s sel row col) := by
  obtain ⟨hs, hp, hcol, hvm⟩ := hi.sel sel hsel
  rw [hvm] at hv
  obtain ⟨hd, hchk⟩ := (mem_getValidMovesForPiece s.board sel.piece sel.row sel.col _).mp hv
  have hdr := getPieceMoves_inRange s.board sel.piece sel.row sel.col false _ hs hd
  have hsafe : isKingInCheck (opponent sel.piece.color) s.board = false := by
    rw [hcol]; exact hi.safe
  have hkopp : kingCount (opponent sel.piece.color) s.board = 1 := by
    rw [hcol]; cases s.turn
    · exact hi.kingB
    · exact hi.kingW
  have hnk : ∀ color, cellAt s.board row col ≠ some ⟨color, .K⟩ := by
    intro color
    by_cases hc : color = sel.piece.color
    · rw [hc]
      exact target_not_own_king s.board sel.piece sel.row sel.col ⟨row, col⟩ hs hd .K
    · have : color = opponent sel.piece.color := (eq_opponent_iff _ _).mpr hc
      rw [this]
      exact target_not_enemy_king s.board sel.piece sel.row sel.col ⟨row, col⟩ hs hp hkopp hsafe hd
  have hcount : ∀ color, kingCount color (moveResult s sel row col).board =
      kingCount color s.board :=
    fun color => kingCount_commitMove s.board sel.piece sel.row sel.col ⟨row, col⟩ color
      hi.size hs hp hd (hnk color)
  refine ⟨is8x8_commitMove _ _ _ _ _ hi.size, ?_, ?_, ?_, ?_, fun _ => rfl, rfl⟩
  · rw [hcount]; exact hi.kingW
  · rw [hcount]; exact hi.kingB
  · show isKingInCheck (opponent (opponent s.turn))
      (commitMove s.board sel.row sel.col row col) = false
    rw [opponent_opponent, ← hcol]
    rw [isKingInCheck_commitMove s.board sel.piece sel.row sel.col ⟨row, col⟩ hi.size hdr hp]
    exact hchk
  · intro sp h
    exact absurd h (by simp [moveResult])

theorem inv_handleSquareClick (s : Session) (hi : Inv s) (row col : Int)
    (hr : InRange row col) : Inv (handleSquareClick s row col) := by
  rcases handleSquareClick_cases s row col with h | h | ⟨piece, _, _, hc, hcol, h⟩ |
    ⟨sel, hsel, _, hv, h⟩
  · rw [h]; exact hi
  · rw [h]
    exact ⟨hi.size, hi.kingW, hi.kingB, hi.safe, fun sp h => absurd h (by simp),
      fun _ => rfl, hi.status⟩
  · rw [h]
    refine ⟨hi.size, hi.kingW, hi.kingB, hi.safe, ?_, fun h => absurd h (by simp), hi.status⟩
    intro sp hsp
    have : sp = ⟨piece, row, col⟩ := by
      simp only [Option.some.injEq] at hsp; exact hsp.symm
    subst this
    exact ⟨hr, hc, hcol, rfl⟩
  · rw [h]; exact inv_moveResult s hi sel row col hsel hv

theorem inv_reachable (s : Session) (h : Reachable s) : Inv s := by
  induction h with
  | init => exact inv_initial
  | click row col _ hr ih => exact inv_handleSquareClick _ ih row col hr
  | reset _ _ => exact inv_initial

theorem statusOf_cases (turn : Color) (b : Board) :
    (statusOf turn b = .checkmate ↔
      isKingInCheck turn b = true ∧ hasAnyValidMoves turn b = false) ∧
    (statusOf turn b = .stalemate ↔
      isKingInCheck turn b = false ∧ hasAnyValidMoves turn b = false) ∧
    (statusOf turn b = .check ↔
      isKingInCheck turn b = true ∧ hasAnyValidMoves turn b = true) ∧
    (statusOf turn b = .playing ↔
      isKingInCheck turn b = false ∧ hasAnyValidMoves turn b = true) := by
  unfold statusOf
  cases isKingInCheck turn b <;> cases hasAnyValidMoves turn b <;> simp

/-- C2: in every reachable session the status is derived from the side to
move: `checkmate` iff its king is in check and it has no valid move,
`stalemate` iff its king is not in check and it has no valid move, `check` iff
its king is in check and it has a valid move, `playing` iff its king is not in
check and it has a valid move. -/
theorem status_derived_from_side_to_move (s : Session) (h : Reachable s) :
    (s.gameState = .checkmate ↔
      isKingInCheck s.turn s.board = true ∧ hasAnyValidMoves s.turn s.board = false) ∧
    (s.gameState = .stalemate ↔
      isKingInCheck s.turn s.board = false ∧ hasAnyValidMoves s.turn s.board = false) ∧
    (s.gameState = .check ↔
      isKingInCheck s.turn s.board = true ∧ hasAnyValidMoves s.turn s.board = true) ∧
    (s.gameState = .playing ↔
      isKingInCheck s.turn s.board = false ∧ hasAnyValidMoves s.turn s.board = true) := by
  rw [(inv_reachable s h).status]
  exact statusOf_cases s.turn s.board

/-- C3: in every reachable session the board holds exactly one white king and
exactly one black king; no square on which a click completes a move (an active
legal destination) holds a king; and no legal destination of a piece of the
side to move is the square of the king of the opponent. -/
theorem one_king_each_never_captured (s : Session) (h : Reachable s) :
    kingCount .w s.board = 1 ∧ kingCount .b s.board = 1 ∧
    (∀ d ∈ s.validMoves, ∀ q, cellAt s.board d.row d.col = some q → q.kind ≠ .K) ∧
    (∀ row col p d, InRange row col → cellAt s.board row col = some p → p.color = s.turn →
      d ∈ getValidMovesForPiece p row col s.board →
      cellAt s.board d.row d.col ≠ some ⟨opponent s.turn, .K⟩) := by
  have hi := inv_reachable s h
  have hko : ∀ p : Piece, p.color = s.turn → kingCount (opponent p.color) s.board = 1 := by
    intro p hp
    rw [hp]; cases s.turn
    · exact hi.kingB
    · exact hi.kingW
  refine ⟨hi.kingW, hi.kingB, ?_, ?_⟩
  · intro d hd q hq hk
    cases hsel : s.selectedPiece with
    | none => rw [hi.nosel hsel] at hd; exact absurd hd (List.not_mem_nil _)
    | some sel =>
      obtain ⟨hs, hp, hcol, hvm⟩ := hi.sel sel hsel
      rw [hvm] at hd
      have hd1 := ((mem_getValidMovesForPiece _ _ _ _ _).mp hd).1
      have hq2 : cellAt s.board d.row d.col = some ⟨q.color, .K⟩ := by
        rw [hq, ← hk]
      by_cases hc : q.color = sel.piece.color
      · rw [hc] at hq2
        exact target_not_own_king s.board sel.piece sel.row sel.col d hs hd1 .K hq2
      · rw [(eq_opponent_iff _ _).mpr hc] at hq2
        exact target_not_enemy_king s.board sel.piece sel.row sel.col d hs hp
          (hko _ hcol) (by rw [hcol]; exact hi.safe) hd1 hq2
  · intro row col p d hs hp hcol hd
    have hd1 := ((mem_getValidMovesForPiece _ _ _ _ _).mp hd).1
    rw [← hcol]
    exact target_not_enemy_king s.board p row col d hs hp (hko _ hcol)
      (by rw [hcol]; exact hi.safe) hd1

/-! ## Scenarios -/

theorem reachable_clicks (l : List (Int × Int)) (s : Session) (hs : Reachable s)
    (hl : ∀ rc ∈ l, InRange rc.1 rc.2) : Reachable (clicks s l) := by
  induction l generalizing s with
  | nil => exact hs
  | cons rc l ih =>
    unfold clicks
    rw [List.foldl_cons]
    exact ih _ (Reachable.click rc.1 rc.2 hs (hl rc (List.mem_cons_self _ _)))
      (fun x hx => hl x (List.mem_cons_of_mem _ hx))

theorem pawnChainBoard_played :
    (clicks initialSession [(6, 4), (4, 4), (1, 3), (3, 3), (6, 3), (5, 3)]).board =
      pawnChainBoard := by
  decide

set_option maxRecDepth 100000 in
/-- C4: Fool's Mate. From the initial session the clicks (6,5),(5,5); (1,4),(3,4);
(6,6),(4,6); (0,3),(4,7) are accepted move by move: after each selecting click
the next clicked square is among the legal destinations of the selection. The
final session has status `checkmate`, White to move, the white king marked as
checked, and the status message names Black as the winner. -/
theorem fools_mate_is_checkmate :
    (⟨5, 5⟩ : Square) ∈ (clicks initialSession (foolsMate.take 1)).validMoves ∧
    (⟨3, 4⟩ : Square) ∈ (clicks initialSession (foolsMate.take 3)).validMoves ∧
    (⟨4, 6⟩ : Square) ∈ (clicks initialSession (foolsMate.take 5)).validMoves ∧
    (⟨4, 7⟩ : Square) ∈ (clicks initialSession (foolsMate.take 7)).validMoves ∧
    (clicks initialSession foolsMate).gameState = .checkmate ∧
    (clicks initialSession foolsMate).turn = .w ∧
    (clicks initialSession foolsMate).kingInCheck = some .w ∧
    getStatusMessage (clicks initialSession foolsMate) = "Checkmate! Black wins!" := by
  decide

theorem legal_move_leaves_king_safe_witness :
    (handleSquareClick (clicks initialSession [(6, 4)]) (⟨4, 4⟩ : Square).row
        (⟨4, 4⟩ : Square).col).board =
      commitMove (clicks initialSession [(6, 4)]).board 6 4 (⟨4, 4⟩ : Square).row
        (⟨4, 4⟩ : Square).col ∧
    isKingInCheck wP.color
      (handleSquareClick (clicks initialSession [(6, 4)]) (⟨4, 4⟩ : Square).row
        (⟨4, 4⟩ : Square).col).board = false :=
  legal_move_leaves_king_safe (clicks initialSession [(6, 4)]) wP 6 4 ⟨4, 4⟩
    (by decide) (by decide) (by decide) (by decide) (by decide) (by decide) (by decide)

theorem status_derived_from_side_to_move_witness :
    ((clicks initialSession foolsMate).gameState = .checkmate ↔
      isKingInCheck (clicks initialSession foolsMate).turn
          (clicks initialSession foolsMate).board = true ∧
        hasAnyValidMoves (clicks initialSession foolsMate).turn
          (clicks initialSession foolsMate).board = false) ∧
    ((clicks initialSession foolsMate).gameState = .stalemate ↔
      isKingInCheck (clicks initialSession foolsMate).turn
          (clicks initialSession foolsMate).board = false ∧
        hasAnyValidMoves (clicks initialSession foolsMate).turn
          (clicks initialSession foolsMate).board = false) ∧
    ((clicks initialSession foolsMate).gameState = .check ↔
      isKingInCheck (clicks initialSession foolsMate).turn
          (clicks initialSession foolsMate).board = true ∧
        hasAnyValidMoves (clicks initialSession foolsMate).turn
          (clicks initialSession foolsMate).board = true) ∧
    ((clicks initialSession foolsMate).gameState = .playing ↔
      isKingInCheck (clicks initialSession foolsMate).turn
          (clicks initialSession foolsMate).board = false ∧
        hasAnyValidMoves (clicks initialSession foolsMate).turn
          (clicks initialSession foolsMate).board = true) :=
  status_derived_from_side_to_move (clicks initialSession foolsMate)
    (reachable_clicks foolsMate initialSession Reachable.init (by decide))

theorem one_king_each_never_captured_witness :
    kingCount .w (clicks initialSession [(6, 4)]).board = 1 ∧
    kingCount .b (clicks initialSession [(6, 4)]).board = 1 ∧
    (∀ d ∈ (clicks initialSession [(6, 4)]).validMoves, ∀ q,
      cellAt (clicks initialSession [(6, 4)]).board d.row d.col = some q → q.kind ≠ .K) ∧
    (∀ row col p d, InRange row col →
      cellAt (clicks initialSession [(6, 4)]).board row col = some p →
      p.color = (clicks initialSession [(6, 4)]).turn →
      d ∈ getValidMovesForPiece p row col (clicks initialSession [(6, 4)]).board →
      cellAt (clicks initialSession [(6, 4)]).board d.row d.col ≠
        some ⟨opponent (clicks initialSession [(6, 4)]).turn, .K⟩) :=
  one_king_each_never_captured (clicks initialSession [(6, 4)])
    (reachable_clicks [(6, 4)] initialSession Reachable.init (by decide))

/-! ## Claims on the click handler -/

/-- C13: for a session with status `playing` or `check` and an active selection,
a click on a square that is not among the active legal destinations clears the
selection and the legal-destination list and leaves board, turn, status,
capture ledger, lastMove and checked king unchanged. -/
theorem click_off_destinations_deselects (s : Session) (sel : Selected) (row col : Int)
    (hg : s.gameState = .playing ∨ s.gameState = .check)
    (hsel : s.selectedPiece = some sel)
    (hv : (⟨row, col⟩ : Square) ∉ s.validMoves) :
    (handleSquareClick s row col).selectedPiece = none ∧
    (handleSquareClick s row col).validMoves = [] ∧
    (handleSquareClick s row col).board = s.board ∧
    (handleSquareClick s row col).turn = s.turn ∧
    (handleSquareClick s row col).gameState = s.gameState ∧
    (handleSquareClick s row col).captured = s.captured ∧
    (handleSquareClick s row col).lastMove = s.lastMove ∧
    (handleSquareClick s row col).kingInCheck = s.kingInCheck := by
  have hg2 : ¬ (s.gameState ≠ .playing ∧ s.gameState ≠ .check) := by
    rcases hg with h | h <;> simp [h]
  have hany : ¬ (s.validMoves.any fun m => decide (m.row = row) && decide (m.col = col)) = true :=
    fun h => hv ((any_square_iff _ _ _).mp h)
  have : handleSquareClick s row col = { s with selectedPiece := none, validMoves := [] } := by
    unfold handleSquareClick
    rw [if_neg hg2, hsel]
    simp only [hany]
    rfl
  rw [this]
  exact ⟨rfl, rfl, rfl, rfl, rfl, rfl, rfl, rfl⟩

theorem click_off_destinations_deselects_witness :
    (handleSquareClick (clicks initialSession [(6, 4)]) 3 4).selectedPiece = none ∧
    (handleSquareClick (clicks initialSession [(6, 4)]) 3 4).validMoves = [] ∧
    (handleSquareClick (clicks initialSession [(6, 4)]) 3 4).board =
      (clicks initialSession [(6, 4)]).board ∧
    (handleSquareClick (clicks initialSession [(6, 4)]) 3 4).turn =
      (clicks initialSession [(6, 4)]).turn ∧
    (handleSquareClick (clicks initialSession [(6, 4)]) 3 4).gameState =
      (clicks initialSession [(6, 4)]).gameState ∧
    (handleSquareClick (clicks initialSession [(6, 4)]) 3 4).captured =
      (clicks initialSession [(6, 4)]).captured ∧
    (handleSquareClick (clicks initialSession [(6, 4)]) 3 4).lastMove =
      (clicks initialSession [(6, 4)]).lastMove ∧
    (handleSquareClick (clicks initialSession [(6, 4)]) 3 4).kingInCheck =
      (clicks initialSession [(6, 4)]).kingInCheck :=
  click_off_destinations_deselects (clicks initialSession [(6, 4)]) ⟨wP, 6, 4⟩ 3 4
    (by decide) (by decide) (by decide)

/-- C14: `handleSquareClick` returns the session unchanged (a) when the status
is `checkmate` or `stalemate`, for any square and any selection; (b) when the
status is `playing` or `check`, no selection is active and the clicked square
is empty or holds a piece of the side not to move. -/
theorem click_is_noop (s : Session) (row col : Int)
    (h : (s.gameState = .checkmate ∨ s.gameState = .stalemate) ∨
      ((s.gameState = .playing ∨ s.gameState = .check) ∧ s.selectedPiece = none ∧
        (cellAt s.board row col = none ∨
          ∃ q, cellAt s.board row col = some q ∧ q.color ≠ s.turn))) :
    handleSquareClick s row col = s := by
  unfold handleSquareClick
  rcases h with h | ⟨hg, hsel, hc⟩
  · have : s.gameState ≠ .playing ∧ s.gameState ≠ .check := by
      rcases h with h | h <;> simp [h]
    rw [if_pos this]
  · have hg2 : ¬ (s.gameState ≠ .playing ∧ s.gameState ≠ .check) := by
      rcases hg with h | h <;> simp [h]
    rw [if_neg hg2, hsel]
    rcases hc with hc | ⟨q, hc, hq⟩
    · simp only [hc]
    · simp only [hc, hq, if_false]

theorem click_is_noop_witness :
    handleSquareClick { initialSession with gameState := .stalemate } 6 0 =
        { initialSession with gameState := .stalemate } ∧
      handleSquareClick initialSession 1 0 = initialSession :=
  ⟨click_is_noop { initialSession with gameState := .stalemate } 6 0 (Or.inl (Or.inr rfl)),
    click_is_noop initialSession 1 0
      (Or.inr ⟨Or.inl rfl, rfl, Or.inr ⟨bP, by decide, by decide⟩⟩)⟩

/-- C15: `resetGame` yields the initial session from every session; the
initial session has the standard board (black back rank on row 0, black pawns
on row 1, rows 2 to 5 empty, white pawns on row 6, white back rank on row 7,
kings on column 4, queens on column 3, 16 pieces per side), White to move,
status `playing`, no selection, no legal destinations, no lastMove, no checked
king and both capture ledgers empty. -/
theorem reset_yields_initial_session (s : Session) :
    resetGame s = initialSession ∧
    rowCells initialSession.board 0 =
      [some bR, some bN, some bB, some bQ, some bK, some bB, some bN, some bR] ∧
    rowCells initialSession.board 1 = List.replicate 8 (some bP) ∧
    rowCells initialSession.board 2 = List.replicate 8 none ∧
    rowCells initialSession.board 3 = List.replicate 8 none ∧
    rowCells initialSession.board 4 = List.replicate 8 none ∧
    rowCells initialSession.board 5 = List.replicate 8 none ∧
    rowCells initialSession.board 6 = List.replicate 8 (some wP) ∧
    rowCells initialSession.board 7 =
      [some wR, some wN, some wB, some wQ, some wK, some wB, some wN, some wR] ∧
    Is8x8 initialSession.board ∧
    pieceCount .w initialSession.board = 16 ∧ pieceCount .b initialSession.board = 16 ∧
    initialSession.turn = .w ∧ initialSession.gameState = .playing ∧
    initialSession.selectedPiece = none ∧ initialSession.validMoves = [] ∧
    initialSession.lastMove = none ∧ initialSession.kingInCheck = none ∧
    initialSession.captured.w = [] ∧ initialSession.captured.b = [] := by
  refine ⟨rfl, ?_⟩
  decide

/-- C18 fails on the code: after 1. e4 d5 2. exd5 White has captured a black
pawn, which `handleSquareClick` files in the ledger entry of White,
`captured.w`; the render passes `captured.b` to the panel of colour `w`,
headed "White has captured:", and `captured.w` to the panel headed "Black has
captured:", so the black pawn is shown as captured by Black. -/
theorem captured_panels_swapped :
    (clicks initialSession [(6, 4), (4, 4), (1, 3), (3, 3), (4, 4), (3, 3)]).captured =
      { w := [bP], b := [] } ∧
    capturedPanels (clicks initialSession [(6, 4), (4, 4), (1, 3), (3, 3), (4, 4), (3, 3)]) =
      [⟨[], .w⟩, ⟨[bP], .b⟩] ∧
    panelHeading .w = "White has captured:" ∧ panelHeading .b = "Black has captured:" := by
  decide

/-! ## The committed board, cell by cell -/

theorem cellAt_tempBoard (b : Board) (p : Piece) (row col : Int) (d : Square) (r c : Int)
    (hb : Is8x8 b) (hs : InRange row col) (hd : InRange d.row d.col) :
    cellAt (tempBoard b p row col d) r c =
      if r = row ∧ c = col then none
      else if r = d.row ∧ c = d.col then some p
      else cellAt b r c := by
  unfold tempBoard
  split
  · rename_i h
    rw [h.1, h.2]
    exact cellAt_setCell_same _ _ _ _ (is8x8_setCell _ _ _ _ hb) hs
  · rename_i h
    rw [cellAt_setCell_ne _ _ _ _ _ _ h]
    split
    · rename_i h2
      rw [h2.1, h2.2]
      exact cellAt_setCell_same _ _ _ _ hb hd
    · rename_i h2
      exact cellAt_setCell_ne _ _ _ _ _ _ h2

/-- The piece that stands on the destination after the move: the queen of the
colour for a pawn reaching its farthest rank, the moved piece otherwise. -/
theorem cellAt_commitMove (b : Board) (p : Piece) (row col : Int) (d : Square) (r c : Int)
    (hb : Is8x8 b) (hs : InRange row col) (hd : InRange d.row d.col)
    (hp : cellAt b row col = some p) (hne : ¬ (d.row = row ∧ d.col = col)) :
    cellAt (commitMove b row col d.row d.col) r c =
      if r = row ∧ c = col then none
      else if r = d.row ∧ c = d.col then
        (if (p = wP ∧ d.row = 0) ∨ (p = bP ∧ d.row = 7) then some ⟨p.color, .Q⟩ else some p)
      else cellAt b r c := by
  have hT := cellAt_tempBoard b p row col d d.row d.col hb hs hd
  rw [if_neg hne, if_pos ⟨rfl, rfl⟩] at hT
  have hTb := is8x8_tempBoard b p row col d hb
  rw [commitMove_eq b p row col d hp, hT]
  have h7 : d.row = 0 → ¬ d.row = 7 := by omega
  by_cases h1 : p = wP ∧ d.row = 0
  · have c1 : some p = some wP ∧ d.row = 0 := ⟨by rw [h1.1], h1.2⟩
    rw [if_pos c1, if_neg (fun h => h7 h1.2 h.2), if_pos (Or.inl h1)]
    by_cases hrc : r = d.row ∧ c = d.col
    · have hrs : ¬ (r = row ∧ c = col) := by rw [hrc.1, hrc.2]; exact hne
      rw [if_neg hrs, if_pos hrc, hrc.1, hrc.2, cellAt_setCell_same _ _ _ _ hTb hd, h1.1]
      rfl
    · rw [cellAt_setCell_ne _ _ _ _ _ _ hrc, cellAt_tempBoard b p row col d r c hb hs hd,
        if_neg hrc]
      split <;> rfl
  · have c1 : ¬ (some p = some wP ∧ d.row = 0) := fun h => h1 ⟨Option.some.inj h.1, h.2⟩
    rw [if_neg c1]
    by_cases h2 : p = bP ∧ d.row = 7
    · have c2 : some p = some bP ∧ d.row = 7 := ⟨by rw [h2.1], h2.2⟩
      rw [if_pos c2, if_pos (Or.inr h2)]
      by_cases hrc : r = d.row ∧ c = d.col
      · have hrs : ¬ (r = row ∧ c = col) := by rw [hrc.1, hrc.2]; exact hne
        rw [if_neg hrs, if_pos hrc, hrc.1, hrc.2, cellAt_setCell_same _ _ _ _ hTb hd, h2.1]
        rfl
      · rw [cellAt_setCell_ne _ _ _ _ _ _ hrc, cellAt_tempBoard b p row col d r c hb hs hd,
          if_neg hrc]
        split <;> rfl
    · have c2 : ¬ (some p = some bP ∧ d.row = 7) := fun h => h2 ⟨Option.some.inj h.1, h.2⟩
      have c3 : ¬ ((p = wP ∧ d.row = 0) ∨ (p = bP ∧ d.row = 7)) := by
        rintro (h | h)
        · exact h1 h
        · exact h2 h
      rw [if_neg c2, if_neg c3]
      exact cellAt_tempBoard b p row col d r c hb hs hd

/-- A destination of the move generator is not the square of the mover. -/
theorem move_ne_origin (b : Board) (p : Piece) (row col : Int) (d : Square)
    (hs : InRange row col) (hp : cellAt b row col = some p)
    (hd : d ∈ getPieceMoves p row col b false) : ¬ (d.row = row ∧ d.col = col) := by
  intro h
  have hfree := (freeFor_iff b p.color d.row d.col).mp
    (getPieceMoves_free b p row col false d hs (Or.inr rfl) hd) p
  rw [h.1, h.2] at hfree
  exact hfree hp rfl

/-- A destination of the move generator is empty or holds an opponent piece. -/
theorem target_color (b : Board) (p : Piece) (row col : Int) (d : Square) (t : Piece)
    (hs : InRange row col) (hd : d ∈ getPieceMoves p row col b false)
    (ht : cellAt b d.row d.col = some t) : t.color = opponent p.color := by
  rcases getPieceMoves_free b p row col false d hs (Or.inr rfl) hd with h | ⟨q, hq, hc⟩
  · rw [h] at ht; exact Option.noConfusion ht
  · rw [hq] at ht
    rw [← Option.some.inj ht]; exact hc

/-! ## Material and ledger -/

theorem countCells_setCell (f : Cell → Bool) (b : Board) (r c : Int) (v : Cell)
    (hb : Is8x8 b) (hr : InRange r c) :
    (allSquares.countP fun rc => f (cellAt (setCell b r c v) rc.1 rc.2)) +
        (if f (cellAt b r c) then 1 else 0) =
      (allSquares.countP fun rc => f (cellAt b rc.1 rc.2)) + (if f v then 1 else 0) := by
  have := countP_update allSquares nodup_allSquares
    (fun rc => f (cellAt b rc.1 rc.2))
    (fun rc => f (cellAt (setCell b r c v) rc.1 rc.2)) (r, c)
    ((mem_allSquares r c).mpr hr)
    (by
      intro y hy
      simp only
      rw [cellAt_setCell_ne]
      intro h
      exact hy (Prod.ext h.1 h.2))
  simp only [cellAt_setCell_same b r c v hb hr] at this
  exact this

theorem pieceCount_setCell (color : Color) (b : Board) (r c : Int) (v : Cell)
    (hb : Is8x8 b) (hr : InRange r c) :
    pieceCount color (setCell b r c v) + (if holdsColor color (cellAt b r c) then 1 else 0) =
      pieceCount color b + (if holdsColor color v then 1 else 0) :=
  countCells_setCell (holdsColor color) b r c v hb hr

theorem pieceCount_commitMove (b : Board) (p : Piece) (row col : Int) (d : Square)
    (color : Color) (hb : Is8x8 b) (hs : InRange row col) (hp : cellAt b row col = some p)
    (hd : d ∈ getPieceMoves p row col b false) :
    pieceCount color (commitMove b row col d.row d.col) +
        (if holdsColor color (cellAt b d.row d.col) then 1 else 0) =
      pieceCount color b := by
  have hdr := getPieceMoves_inRange b p row col false d hs hd
  have hne : ¬ (row = d.row ∧ col = d.col) := by
    intro h
    exact move_ne_origin b p row col d hs hp hd ⟨h.1.symm, h.2.symm⟩
  have h1 := pieceCount_setCell color b d.row d.col (some p) hb hdr
  have hb1 := is8x8_setCell b d.row d.col (some p) hb
  have h2 := pieceCount_setCell color (setCell b d.row d.col (some p)) row col none hb1 hs
  rw [cellAt_setCell_ne _ _ _ _ _ _ hne, hp] at h2
  have hnone : holdsColor color none = false := rfl
  rw [hnone] at h2
  simp only [Bool.false_eq_true, if_false] at h2
  have hT : pieceCount color (tempBoard b p row col d) +
      (if holdsColor color (cellAt b d.row d.col) then 1 else 0) = pieceCount color b := by
    unfold tempBoard
    omega
  rcases commitMove_cases b p row col d hb hdr hp with h | ⟨h3, _, h5⟩
  · rw [h, hT]
  · have h6 := pieceCount_setCell color (tempBoard b p row col d) d.row d.col
      (some ⟨p.color, .Q⟩) (is8x8_tempBoard b p row col d hb) hdr
    rw [h3] at h6
    have e : holdsColor color (some (⟨p.color, .Q⟩ : Piece)) = holdsColor color (some p) := rfl
    rw [e] at h6
    rw [h5]
    omega

theorem ledger_recordCapture_none (color : Color) (captured : Captured) :
    ledger color (recordCapture captured none) = ledger color captured := rfl

theorem ledger_recordCapture_some (color : Color) (captured : Captured) (t : Piece) :
    ledger color (recordCapture captured (some t)) =
      if color = opponent t.color then ledger color captured ++ [t]
      else ledger color captured := by
  obtain ⟨tc, tk⟩ := t
  cases color <;> cases tc <;> rfl

/-! ## Further invariant of the reachable sessions -/

theorem inv2_initial : Inv2 initialSession where
  selPlaying := fun _ _ => Or.inl rfl
  noPawnW := by
    intro c
    by_cases h : InRange 0 c
    · have : ∀ rc ∈ allSquares, rc.1 = 0 → cellAt initialSession.board rc.1 rc.2 ≠ some wP := by
        decide
      exact this (0, c) ((mem_allSquares 0 c).mpr h) rfl
    · have : cellAt initialSession.board 0 c = none := by
        unfold InRange at h
        have hc : c < 0 ∨ 8 ≤ c := by omega
        unfold cellAt readCell
        rcases hc with hc | hc
        · rw [if_neg (by omega)]; rfl
        · split
          · have h8 : 8 ≤ c.toNat := by omega
            have : (initialSession.board[(0 : Int).toNat]?) =
                some [some bR, some bN, some bB, some bQ, some bK, some bB, some bN, some bR] := rfl
            rw [this]
            simp only
            rw [List.getElem?_eq_none (by simpa using h8)]
            rfl
          · rfl
      rw [this]; exact fun h => Option.noConfusion h
  noPawnB := by
    intro c
    by_cases h : InRange 7 c
    · have : ∀ rc ∈ allSquares, rc.1 = 7 → cellAt initialSession.board rc.1 rc.2 ≠ some bP := by
        decide
      exact this (7, c) ((mem_allSquares 7 c).mpr h) rfl
    · have : cellAt initialSession.board 7 c = none := by
        unfold InRange at h
        have hc : c < 0 ∨ 8 ≤ c := by omega
        unfold cellAt readCell
        rcases hc with hc | hc
        · rw [if_neg (by omega)]; rfl
        · split
          · have h8 : 8 ≤ c.toNat := by omega
            have : (initialSession.board[(7 : Int).toNat]?) =
                some [some wR, some wN, some wB, some wQ, some wK, some wB, some wN, some wR] := rfl
            rw [this]
            simp only
            rw [List.getElem?_eq_none (by simpa using h8)]
            rfl
          · rfl
      rw [this]; exact fun h => Option.noConfusion h
  material := by
    intro color
    cases color <;> decide
  ledgerColor := by
    intro color q hq
    cases color <;> exact absurd hq (List.not_mem_nil _)

theorem inv2_moveResult (s : Session) (hi : Inv s) (hj : Inv2 s) (sel : Selected)
    (row col : Int) (hsel : s.selectedPiece = some sel)
    (hv : (⟨row, col⟩ : Square) ∈ s.validMoves) : Inv2 (moveResult s sel row col) := by
  obtain ⟨hs, hp, hcol, hvm⟩ := hi.sel sel hsel
  rw [hvm] at hv
  have hd := ((mem_getValidMovesForPiece s.board sel.piece sel.row sel.col _).mp hv).1
  have hdr : InRange row col :=
    getPieceMoves_inRange s.board sel.piece sel.row sel.col false ⟨row, col⟩ hs hd
  have hne := move_ne_origin s.board sel.piece sel.row sel.col ⟨row, col⟩ hs hp hd
  have hcell := fun r c =>
    cellAt_commitMove s.board sel.piece sel.row sel.col ⟨row, col⟩ r c hi.size hs hdr hp hne
  have hpc := fun color =>
    pieceCount_commitMove s.board sel.piece sel.row sel.col ⟨row, col⟩ color hi.size hs hp hd
  simp only at hcell hpc hne
  refine ⟨fun sp h => Option.noConfusion h, ?_, ?_, ?_, ?_⟩
  · intro c
    show cellAt (commitMove s.board sel.row sel.col row col) 0 c ≠ some wP
    rw [hcell]
    split
    · exact fun h => Option.noConfusion h
    · split
      · rename_i h
        split
        · intro e
          have := Option.some.inj e
          injection this with _ hk
          exact Kind.noConfusion hk
        · rename_i hpromo
          intro e
          exact hpromo (Or.inl ⟨Option.some.inj e, h.1.symm⟩)
      · exact hj.noPawnW c
  · intro c
    show cellAt (commitMove s.board sel.row sel.col row col) 7 c ≠ some bP
    rw [hcell]
    split
    · exact fun h => Option.noConfusion h
    · split
      · rename_i h
        split
        · intro e
          have := Option.some.inj e
          injection this with _ hk
          exact Kind.noConfusion hk
        · rename_i hpromo
          intro e
          exact hpromo (Or.inr ⟨Option.some.inj e, h.1.symm⟩)
      · exact hj.noPawnB c
  · intro color
    show pieceCount color (commitMove s.board sel.row sel.col row col) +
      (ledger (opponent color) (recordCapture s.captured (cellAt s.board row col))).length = 16
    have hm := hj.material color
    have hpc2 := hpc color
    cases ht : cellAt s.board row col with
    | none =>
      rw [ht] at hpc2
      rw [ledger_recordCapture_none]
      have : holdsColor color none = false := rfl
      rw [this] at hpc2
      simp only [Bool.false_eq_true, if_false] at hpc2
      omega
    | some t =>
      have htc := target_color s.board sel.piece sel.row sel.col ⟨row, col⟩ t hs hd ht
      rw [ht] at hpc2
      rw [ledger_recordCapture_some]
      by_cases hc : t.color = color
      · have h1 : holdsColor color (some t) = true := by simp [holdsColor, hc]
        rw [h1, if_pos rfl] at hpc2
        rw [hc, if_pos rfl, List.length_append, List.length_singleton]
        omega
      · have h1 : holdsColor color (some t) = false := by simp [holdsColor, hc]
        rw [h1] at hpc2
        simp only [Bool.false_eq_true, if_false] at hpc2
        have h2 : ¬ opponent color = opponent t.color := by
          intro e
          apply hc
          have := congrArg opponent e
          rw [opponent_opponent, opponent_opponent] at this
          exact this.symm
        rw [if_neg h2]
        omega
  · intro color q hq
    change q ∈ ledger color (recordCapture s.captured (cellAt s.board row col)) at hq
    cases ht : cellAt s.board row col with
    | none =>
      rw [ht, ledger_recordCapture_none] at hq
      exact hj.ledgerColor color q hq
    | some t =>
      rw [ht, ledger_recordCapture_some] at hq
      split at hq
      · rename_i hc
        rcases List.mem_append.mp hq with h | h
        · exact hj.ledgerColor color q h
        · rw [List.mem_singleton.mp h, hc, opponent_opponent]
      · exact hj.ledgerColor color q hq

theorem inv2_handleSquareClick (s : Session) (hi : Inv s) (hj : Inv2 s) (row col : Int) :
    Inv2 (handleSquareClick s row col) := by
  rcases handleSquareClick_cases s row col with h | h | ⟨piece, _, hg, _, _, h⟩ |
    ⟨sel, hsel, _, hv, h⟩
  · rw [h]; exact hj
  · rw [h]
    exact ⟨fun sp h => Option.noConfusion h, hj.noPawnW, hj.noPawnB, hj.material, hj.ledgerColor⟩
  · rw [h]
    exact ⟨fun _ _ => hg, hj.noPawnW, hj.noPawnB, hj.material, hj.ledgerColor⟩
  · rw [h]; exact inv2_moveResult s hi hj sel row col hsel hv

theorem inv2_reachable (s : Session) (h : Reachable s) : Inv2 s := by
  induction h with
  | init => exact inv2_initial
  | click row col hr _ ih => exact inv2_handleSquareClick _ (inv_reachable _ hr) ih row col
  | reset _ _ => exact inv2_initial

theorem captureSession_played :
    clicks initialSession [(6, 4), (4, 4), (1, 3), (3, 3), (4, 4)] = captureSession := by
  decide

theorem reachable_captureSession : Reachable captureSession :=
  captureSession_played ▸
    reachable_clicks [(6, 4), (4, 4), (1, 3), (3, 3), (4, 4)] initialSession Reachable.init
      (by decide)

/-! ## Claims on completed moves -/

/-- C11: in a reachable session with an active selection, a click on an active
legal destination that holds a piece `t` appends `t` at the end of the ledger
of the side to move (the mover), leaves the ledger of the other side unchanged,
and leaves on the destination the moved piece, or the queen of its colour when
it is a pawn that reached its farthest rank; that piece belongs to the mover. -/
theorem capture_appends_to_mover_ledger (s : Session) (sel : Selected) (row col : Int)
    (t : Piece) (h : Reachable s) (hsel : s.selectedPiece = some sel)
    (hv : (⟨row, col⟩ : Square) ∈ s.validMoves) (ht : cellAt s.board row col = some t) :
    ledger s.turn (handleSquareClick s row col).captured = ledger s.turn s.captured ++ [t] ∧
    (ledger s.turn (handleSquareClick s row col).captured).length =
      (ledger s.turn s.captured).length + 1 ∧
    ledger (opponent s.turn) (handleSquareClick s row col).captured =
      ledger (opponent s.turn) s.captured ∧
    sel.piece.color = s.turn ∧
    cellAt (handleSquareClick s row col).board row col =
      (if (sel.piece = wP ∧ row = 0) ∨ (sel.piece = bP ∧ row = 7) then
        some ⟨sel.piece.color, .Q⟩ else some sel.piece) := by
  have hi := inv_reachable s h
  have hj := inv2_reachable s h
  obtain ⟨hs, hp, hcol, hvm⟩ := hi.sel sel hsel
  have hg := hj.selPlaying sel hsel
  have hstep := handleSquareClick_move s sel row col hg hsel ((any_square_iff _ _ _).mpr hv)
  rw [hvm] at hv
  have hd := ((mem_getValidMovesForPiece s.board sel.piece sel.row sel.col _).mp hv).1
  have hdr : InRange row col :=
    getPieceMoves_inRange s.board sel.piece sel.row sel.col false ⟨row, col⟩ hs hd
  have hne := move_ne_origin s.board sel.piece sel.row sel.col ⟨row, col⟩ hs hp hd
  have htc := target_color s.board sel.piece sel.row sel.col ⟨row, col⟩ t hs hd ht
  have hcell :=
    cellAt_commitMove s.board sel.piece sel.row sel.col ⟨row, col⟩ row col hi.size hs hdr hp hne
  dsimp only at hcell hne
  rw [hcol] at htc
  have hcap : (handleSquareClick s row col).captured = recordCapture s.captured (some t) := by
    rw [hstep, ← ht]; rfl
  have hboard : (handleSquareClick s row col).board =
      commitMove s.board sel.row sel.col row col := by
    rw [hstep]; rfl
  have h1 : ledger s.turn (handleSquareClick s row col).captured =
      ledger s.turn s.captured ++ [t] := by
    rw [hcap, ledger_recordCapture_some, htc, opponent_opponent, if_pos rfl]
  refine ⟨h1, ?_, ?_, hcol, ?_⟩
  · rw [h1, List.length_append, List.length_singleton]
  · rw [hcap, ledger_recordCapture_some, htc, opponent_opponent, if_neg (opponent_ne _)]
  · rw [hboard, hcell, if_neg hne, if_pos ⟨rfl, rfl⟩]

theorem capture_appends_to_mover_ledger_witness :
    ledger captureSession.turn (handleSquareClick captureSession 3 3).captured =
      ledger captureSession.turn captureSession.captured ++ [bP] ∧
    (ledger captureSession.turn (handleSquareClick captureSession 3 3).captured).length =
      (ledger captureSession.turn captureSession.captured).length + 1 ∧
    ledger (opponent captureSession.turn) (handleSquareClick captureSession 3 3).captured =
      ledger (opponent captureSession.turn) captureSession.captured ∧
    (⟨wP, 4, 4⟩ : Selected).piece.color = captureSession.turn ∧
    cellAt (handleSquareClick captureSession 3 3).board 3 3 =
      (if ((⟨wP, 4, 4⟩ : Selected).piece = wP ∧ (3 : Int) = 0) ∨
          ((⟨wP, 4, 4⟩ : Selected).piece = bP ∧ (3 : Int) = 7) then
        some ⟨(⟨wP, 4, 4⟩ : Selected).piece.color, .Q⟩
      else some (⟨wP, 4, 4⟩ : Selected).piece) :=
  capture_appends_to_mover_ledger captureSession ⟨wP, 4, 4⟩ 3 3 bP reachable_captureSession
    rfl (by decide) (by decide)

/-- C12: in every reachable session no white pawn stands on row 0 and no black
pawn stands on row 7; and a click that completes a move leaves on the
destination the queen of the colour of the moved piece when that piece is a
white pawn arriving on row 0 or a black pawn arriving on row 7, and the moved
piece itself in every other case. -/
theorem no_pawn_on_farthest_rank (s : Session) (h : Reachable s) :
    (∀ c, cellAt s.board 0 c ≠ some wP) ∧ (∀ c, cellAt s.board 7 c ≠ some bP) ∧
    (∀ sel row col, s.selectedPiece = some sel → (⟨row, col⟩ : Square) ∈ s.validMoves →
      cellAt (handleSquareClick s row col).board row col =
        (if (sel.piece = wP ∧ row = 0) ∨ (sel.piece = bP ∧ row = 7) then
          some ⟨sel.piece.color, .Q⟩ else some sel.piece)) := by
  have hi := inv_reachable s h
  have hj := inv2_reachable s h
  refine ⟨hj.noPawnW, hj.noPawnB, ?_⟩
  intro sel row col hsel hv
  obtain ⟨hs, hp, hcol, hvm⟩ := hi.sel sel hsel
  have hg := hj.selPlaying sel hsel
  have hstep := handleSquareClick_move s sel row col hg hsel ((any_square_iff _ _ _).mpr hv)
  rw [hvm] at hv
  have hd := ((mem_getValidMovesForPiece s.board sel.piece sel.row sel.col _).mp hv).1
  have hdr : InRange row col :=
    getPieceMoves_inRange s.board sel.piece sel.row sel.col false ⟨row, col⟩ hs hd
  have hne := move_ne_origin s.board sel.piece sel.row sel.col ⟨row, col⟩ hs hp hd
  have hcell :=
    cellAt_commitMove s.board sel.piece sel.row sel.col ⟨row, col⟩ row col hi.size hs hdr hp hne
  dsimp only at hcell hne
  have hboard : (handleSquareClick s row col).board =
      commitMove s.board sel.row sel.col row col := by
    rw [hstep]; rfl
  rw [hboard, hcell, if_neg hne, if_pos ⟨rfl, rfl⟩]

theorem no_pawn_on_farthest_rank_witness :
    (∀ c, cellAt captureSession.board 0 c ≠ some wP) ∧
    (∀ c, cellAt captureSession.board 7 c ≠ some bP) ∧
    (∀ sel row col, captureSession.selectedPiece = some sel →
      (⟨row, col⟩ : Square) ∈ captureSession.validMoves →
      cellAt (handleSquareClick captureSession row col).board row col =
        (if (sel.piece = wP ∧ row = 0) ∨ (sel.piece = bP ∧ row = 7) then
          some ⟨sel.piece.color, .Q⟩ else some sel.piece)) :=
  no_pawn_on_farthest_rank captureSession reachable_captureSession

/-- C17: in a reachable session a click on a square of the board changes the
turn iff the status is `playing` or `check`, a selection is active and the
clicked square is among its legal destinations; in that case the new turn is
the opponent, the origin square is empty, `lastMove` is the pair of the
selected square and the clicked square, and the selection is cleared. -/
theorem turn_alternates_per_move (s : Session) (row col : Int) (h : Reachable s)
    (hr : InRange row col) :
    ((handleSquareClick s row col).turn ≠ s.turn ↔
      (s.gameState = .playing ∨ s.gameState = .check) ∧
        (∃ sel, s.selectedPiece = some sel) ∧ (⟨row, col⟩ : Square) ∈ s.validMoves) ∧
    (∀ sel, (s.gameState = .playing ∨ s.gameState = .check) → s.selectedPiece = some sel →
      (⟨row, col⟩ : Square) ∈ s.validMoves →
      (handleSquareClick s row col).turn = opponent s.turn ∧
      cellAt (handleSquareClick s row col).board sel.row sel.col = none ∧
      (handleSquareClick s row col).lastMove = some ⟨⟨sel.row, sel.col⟩, ⟨row, col⟩⟩ ∧
      (handleSquareClick s row col).selectedPiece = none ∧
      (handleSquareClick s row col).validMoves = []) := by
  have _ := hr
  have hi := inv_reachable s h
  have hmove : ∀ sel, (s.gameState = .playing ∨ s.gameState = .check) →
      s.selectedPiece = some sel → (⟨row, col⟩ : Square) ∈ s.validMoves →
      handleSquareClick s row col = moveResult s sel row col :=
    fun sel hg hsel hv =>
      handleSquareClick_move s sel row col hg hsel ((any_square_iff _ _ _).mpr hv)
  constructor
  · constructor
    · intro hturn
      rcases handleSquareClick_cases s row col with h1 | h1 | ⟨piece, _, _, _, _, h1⟩ |
        ⟨sel, hsel, hg, hv, _⟩
      · rw [h1] at hturn; exact absurd rfl hturn
      · rw [h1] at hturn; exact absurd rfl hturn
      · rw [h1] at hturn; exact absurd rfl hturn
      · exact ⟨hg, ⟨sel, hsel⟩, hv⟩
    · rintro ⟨hg, ⟨sel, hsel⟩, hv⟩
      rw [hmove sel hg hsel hv]
      exact opponent_ne s.turn
  · intro sel hg hsel hv
    rw [hmove sel hg hsel hv]
    refine ⟨rfl, ?_, rfl, rfl, rfl⟩
    obtain ⟨hs, hp, hcol, hvm⟩ := hi.sel sel hsel
    rw [hvm] at hv
    have hd := ((mem_getValidMovesForPiece s.board sel.piece sel.row sel.col _).mp hv).1
    have hdr : InRange row col :=
      getPieceMoves_inRange s.board sel.piece sel.row sel.col false ⟨row, col⟩ hs hd
    have hne := move_ne_origin s.board sel.piece sel.row sel.col ⟨row, col⟩ hs hp hd
    have hcell := cellAt_commitMove s.board sel.piece sel.row sel.col ⟨row, col⟩
      sel.row sel.col hi.size hs hdr hp hne
    dsimp only at hcell
    show cellAt (commitMove s.board sel.row sel.col row col) sel.row sel.col = none
    rw [hcell, if_pos ⟨rfl, rfl⟩]

theorem turn_alternates_per_move_witness :
    ((handleSquareClick captureSession 3 3).turn ≠ captureSession.turn ↔
      (captureSession.gameState = .playing ∨ captureSession.gameState = .check) ∧
        (∃ sel, captureSession.selectedPiece = some sel) ∧
        (⟨3, 3⟩ : Square) ∈ captureSession.validMoves) ∧
    (∀ sel, (captureSession.gameState = .playing ∨ captureSession.gameState = .check) →
      captureSession.selectedPiece = some sel →
      (⟨3, 3⟩ : Square) ∈ captureSession.validMoves →
      (handleSquareClick captureSession 3 3).turn = opponent captureSession.turn ∧
      cellAt (handleSquareClick captureSession 3 3).board sel.row sel.col = none ∧
      (handleSquareClick captureSession 3 3).lastMove =
        some ⟨⟨sel.row, sel.col⟩, ⟨3, 3⟩⟩ ∧
      (handleSquareClick captureSession 3 3).selectedPiece = none ∧
      (handleSquareClick captureSession 3 3).validMoves = []) :=
  turn_alternates_per_move captureSession 3 3 reachable_captureSession (by decide)

/-- C20: in every reachable session, for each colour, the number of pieces of
the colour on the board plus the number of entries in the ledger of the
opposite colour is 16, and every entry in the ledger of the colour is a piece
of the opposite colour. -/
theorem material_conserved (s : Session) (h : Reachable s) (color : Color) :
    pieceCount color s.board + (ledger (opponent color) s.captured).length = 16 ∧
      ∀ q ∈ ledger color s.captured, q.color = opponent color :=
  ⟨(inv2_reachable s h).material color, (inv2_reachable s h).ledgerColor color⟩

theorem material_conserved_witness :
    pieceCount .b (handleSquareClick captureSession 3 3).board +
        (ledger (opponent .b) (handleSquareClick captureSession 3 3).captured).length = 16 ∧
      ∀ q ∈ ledger .b (handleSquareClick captureSession 3 3).captured, q.color = opponent .b :=
  material_conserved (handleSquareClick captureSession 3 3)
    (Reachable.click 3 3 reachable_captureSession (by decide)) .b

/-! ## Check detection and the standard attack relation -/

theorem isSquareAttacked_iff (b : Board) (row col : Int) (att : Color) :
    isSquareAttacked row col att b = true ↔
      ∃ r c p, InRange r c ∧ cellAt b r c = some p ∧ p.color = att ∧
        (⟨row, col⟩ : Square) ∈ getPieceMoves p r c b true := by
  unfold isSquareAttacked
  rw [List.any_eq_true]
  constructor
  · rintro ⟨⟨r, c⟩, hmem, h⟩
    cases hc : cellAt b r c with
    | none => simp only [hc] at h; exact absurd h (by decide)
    | some p =>
      simp only [hc, Bool.and_eq_true, decide_eq_true_eq] at h
      exact ⟨r, c, p, (mem_allSquares r c).mp hmem, hc, h.1, (any_square_iff _ _ _).mp h.2⟩
  · rintro ⟨r, c, p, hr, hc, hp, hm⟩
    refine ⟨(r, c), (mem_allSquares r c).mpr hr, ?_⟩
    simp only [hc, Bool.and_eq_true, decide_eq_true_eq]
    exact ⟨hp, (any_square_iff _ _ _).mpr hm⟩

theorem attack_iff_standard (b : Board) (p : Piece) (r c kr kc : Int) (color : Color)
    (hs : InRange r c) (hr : InRange kr kc) (hp : p.color = opponent color)
    (hking : cellAt b kr kc = some ⟨color, .K⟩) :
    (⟨kr, kc⟩ : Square) ∈ getPieceMoves p r c b true ↔ StandardAttack b p r c kr kc := by
  have hfree : FreeFor b (opponent p.color) kr kc := by
    right
    exact ⟨_, hking, by rw [hp, opponent_opponent]⟩
  cases hk : p.kind with
  | P =>
    rw [mem_pawnMoves b p r c true _ hk]
    simp only [StandardAttack, hk, Square.mk.injEq]
    constructor
    · rintro (⟨⟨h1, h2⟩, _, _, h3⟩ | ⟨⟨h1, h2⟩, _, _, _, _, h3⟩ | ⟨dc, hdc, ⟨h1, h2⟩, _⟩)
      · rw [← h1, ← h2, hking] at h3; exact Option.noConfusion h3
      · rw [← h1, ← h2, hking] at h3; exact Option.noConfusion h3
      · refine ⟨h1, ?_⟩
        rcases hdc with rfl | rfl
        · left; rw [h2]; rfl
        · right; exact h2
    · rintro ⟨h1, h2⟩
      right; right
      rcases h2 with h2 | h2
      · refine ⟨-1, Or.inl rfl, ⟨h1, by rw [h2]; rfl⟩, ?_, ?_⟩
        · rw [← h1]; have : c + -1 = kc := by rw [h2]; rfl
          rw [this]; exact hr
        · rw [← h1]; have : c + -1 = kc := by rw [h2]; rfl
          rw [this]; exact ⟨_, hking, Or.inl trivial⟩
      · refine ⟨1, Or.inr rfl, ⟨h1, h2⟩, ?_, ?_⟩
        · rw [← h1, ← h2]; exact hr
        · rw [← h1, ← h2]; exact ⟨_, hking, Or.inl trivial⟩
  | N =>
    rw [mem_leaperMoves b p r c true _ (Or.inl hk)]
    simp only [StandardAttack, hk, Square.mk.injEq]
    constructor
    · rintro ⟨dr, dc, ho, ⟨h1, h2⟩, _⟩
      have e1 : kr - r = dr := by omega
      have e2 : kc - c = dc := by omega
      rw [e1, e2]; exact ho
    · intro ho
      have e1 : r + (kr - r) = kr := by omega
      have e2 : c + (kc - c) = kc := by omega
      exact ⟨kr - r, kc - c, ho, ⟨e1.symm, e2.symm⟩, by rw [e1, e2]; exact hr,
        by rw [e1, e2]; exact hfree⟩
  | K =>
    rw [mem_leaperMoves b p r c true _ (Or.inr hk)]
    simp only [StandardAttack, hk, Square.mk.injEq]
    constructor
    · rintro ⟨dr, dc, ho, ⟨h1, h2⟩, _⟩
      have e1 : kr - r = dr := by omega
      have e2 : kc - c = dc := by omega
      rw [e1, e2]; exact ho
    · intro ho
      have e1 : r + (kr - r) = kr := by omega
      have e2 : c + (kc - c) = kc := by omega
      exact ⟨kr - r, kc - c, ho, ⟨e1.symm, e2.symm⟩, by rw [e1, e2]; exact hr,
        by rw [e1, e2]; exact hfree⟩
  | R =>
    rw [mem_slidingMoves b p r c true _ hs (Or.inl hk)]
    simp only [StandardAttack, hk, RayReach, Square.mk.injEq]
    constructor
    · rintro ⟨dr, dc, hray, n, hn, ⟨h1, h2⟩, _, hj, _⟩
      exact ⟨dr, dc, hray, n, hn, h1, h2, hj⟩
    · rintro ⟨dr, dc, hray, n, hn, h1, h2, hj⟩
      exact ⟨dr, dc, hray, n, hn, ⟨h1, h2⟩, hr, hj, hfree⟩
  | B =>
    rw [mem_slidingMoves b p r c true _ hs (Or.inr (Or.inl hk))]
    simp only [StandardAttack, hk, RayReach, Square.mk.injEq]
    constructor
    · rintro ⟨dr, dc, hray, n, hn, ⟨h1, h2⟩, _, hj, _⟩
      exact ⟨dr, dc, hray, n, hn, h1, h2, hj⟩
    · rintro ⟨dr, dc, hray, n, hn, h1, h2, hj⟩
      exact ⟨dr, dc, hray, n, hn, ⟨h1, h2⟩, hr, hj, hfree⟩
  | Q =>
    rw [mem_slidingMoves b p r c true _ hs (Or.inr (Or.inr hk))]
    simp only [StandardAttack, hk, RayReach, Square.mk.injEq]
    constructor
    · rintro ⟨dr, dc, hray, n, hn, ⟨h1, h2⟩, _, hj, _⟩
      exact ⟨dr, dc, hray, n, hn, h1, h2, hj⟩
    · rintro ⟨dr, dc, hray, n, hn, h1, h2, hj⟩
      exact ⟨dr, dc, hray, n, hn, ⟨h1, h2⟩, hr, hj, hfree⟩

/-- C19: on an 8x8 board with exactly one king of colour `color`, standing on
`(kr, kc)`, `isKingInCheck` is true iff some piece of the opposite colour on
the board attacks `(kr, kc)` in the standard sense (`StandardAttack`). -/
theorem check_iff_standard_attack (b : Board) (color : Color) (kr kc : Int)
    (hb : Is8x8 b) (hcount : kingCount color b = 1) (hr : InRange kr kc)
    (hking : cellAt b kr kc = some ⟨color, .K⟩) :
    isKingInCheck color b = true ↔
      ∃ r c p, InRange r c ∧ cellAt b r c = some p ∧ p.color = opponent color ∧
        StandardAttack b p r c kr kc := by
  have _ := hb
  unfold isKingInCheck
  rw [getKingPosition_unique b color kr kc hcount hr hking]
  simp only
  rw [isSquareAttacked_iff]
  constructor
  · rintro ⟨r, c, p, hs, hc, hp, hm⟩
    exact ⟨r, c, p, hs, hc, hp, (attack_iff_standard b p r c kr kc color hs hr hp hking).mp hm⟩
  · rintro ⟨r, c, p, hs, hc, hp, hm⟩
    exact ⟨r, c, p, hs, hc, hp, (attack_iff_standard b p r c kr kc color hs hr hp hking).mpr hm⟩

theorem check_iff_standard_attack_witness :
    (isKingInCheck .w foolsMateBoard = true ↔
      ∃ r c p, InRange r c ∧ cellAt foolsMateBoard r c = some p ∧ p.color = opponent .w ∧
        StandardAttack foolsMateBoard p r c 7 4) :=
  check_iff_standard_attack foolsMateBoard .w 7 4 (by decide) (by decide) (by decide)
    (by decide)

/-! ## Pinned piece -/

theorem bishop_moves_off_file (b : Board) (p : Piece) (row col : Int) (d : Square)
    (hs : InRange row col) (hk : p.kind = .B) (hd : d ∈ getPieceMoves p row col b false) :
    d.col ≠ col := by
  obtain ⟨dr, dc, hray, n, hn, hdeq, _⟩ :=
    (mem_slidingMoves b p row col false d hs (Or.inr (Or.inl hk))).mp hd
  rw [hk] at hray
  obtain ⟨_, hdc, _, hdc0⟩ := hray
  rw [hdeq]
  simp only
  rcases hdc with h | h | h
  · subst h; omega
  · exact absurd h hdc0
  · subst h; omega

/-- C16: on an 8x8 board whose only white king stands on column `c`, with a
white bishop on the same column, a black rook on the same column beyond the
bishop, and every other square strictly between king and rook on the column
empty, no destination of `getValidMovesForPiece` for the bishop is off column
`c`, although every destination of `getPieceMoves` for the bishop is. -/
theorem pinned_bishop_stays_on_file (b : Board) (c kr br rr : Int) (hb : Is8x8 b)
    (hk : InRange kr c) (hbi : InRange br c) (hro : InRange rr c)
    (hcount : kingCount .w b = 1) (hking : cellAt b kr c = some wK)
    (hbishop : cellAt b br c = some wB) (hrook : cellAt b rr c = some bR)
    (hbetween : (kr < br ∧ br < rr) ∨ (rr < br ∧ br < kr))
    (hempty : ∀ r, ((kr < r ∧ r < rr) ∨ (rr < r ∧ r < kr)) → r ≠ br → cellAt b r c = none) :
    (∀ d ∈ getValidMovesForPiece wB br c b, d.col = c) ∧
      (∀ d ∈ getPieceMoves wB br c b false, d.col ≠ c) := by
  refine ⟨?_, fun d hd => bishop_moves_off_file b wB br c d hbi rfl hd⟩
  intro d hd
  by_contra hcol
  obtain ⟨hd1, hd2⟩ := (mem_getValidMovesForPiece b wB br c d).mp hd
  have hdr := getPieceMoves_inRange b wB br c false d hbi hd1
  have hcell := fun r c2 => cellAt_tempBoard b wB br c d r c2 hb hbi hdr
  have hTking : cellAt (tempBoard b wB br c d) kr c = some wK := by
    rw [hcell, if_neg (by omega), if_neg (fun h => hcol h.2.symm)]
    exact hking
  have hTrook : cellAt (tempBoard b wB br c d) rr c = some bR := by
    rw [hcell, if_neg (by omega), if_neg (fun h => hcol h.2.symm)]
    exact hrook
  have hTcount : kingCount .w (tempBoard b wB br c d) = 1 := by
    have h1 := kingCount_commitMove b wB br c d .w hb hbi hbishop hd1
      (target_not_own_king b wB br c d hbi hd1 .K)
    rcases commitMove_cases b wB br c d hb hdr hbishop with h | ⟨_, h, _⟩
    · rw [← h, h1]; exact hcount
    · exact Kind.noConfusion h
  have hpos := getKingPosition_unique (tempBoard b wB br c d) .w kr c hTcount hk hTking
  have hray : ∀ (dr : Int) (n : Nat), (dr = 1 ∨ dr = -1) → 1 ≤ n → kr = rr + n * dr →
      (⟨kr, c⟩ : Square) ∈ getPieceMoves bR rr c (tempBoard b wB br c d) true := by
    intro dr n hdr1 hn hkr
    rw [mem_slidingMoves _ bR rr c true _ hro (Or.inl rfl)]
    refine ⟨dr, 0, ⟨by omega, Or.inr (Or.inl rfl), Or.inr ⟨by omega, rfl⟩⟩, n, hn, ?_, hk, ?_,
      Or.inr ⟨wK, hTking, rfl⟩⟩
    · rw [hkr]; simp
    · intro j hj1 hj2
      have e : c + (j : Int) * 0 = c := by simp
      rw [e, hcell]
      split
      · rfl
      · rename_i hne
        rw [if_neg (fun h => hcol h.2.symm)]
        apply hempty
        · rcases hdr1 with h | h <;> subst h <;> omega
        · intro h; exact hne ⟨h, rfl⟩
  have hatt : (⟨kr, c⟩ : Square) ∈ getPieceMoves bR rr c (tempBoard b wB br c d) true := by
    rcases hbetween with h | h
    · exact hray (-1) (rr - kr).toNat (Or.inr rfl) (by omega) (by omega)
    · exact hray 1 (kr - rr).toNat (Or.inl rfl) (by omega) (by omega)
  have hchk := isSquareAttacked_of_move (tempBoard b wB br c d) bR rr c ⟨kr, c⟩ hro hTrook hatt
  have hd3 : isKingInCheck .w (tempBoard b wB br c d) = false := hd2
  unfold isKingInCheck at hd3
  rw [hpos] at hd3
  have : isSquareAttacked kr c (opponent .w) (tempBoard b wB br c d) = true := hchk
  simp only [this] at hd3
  exact absurd hd3 (by decide)

theorem pinned_bishop_stays_on_file_witness :
    ((∀ d ∈ getValidMovesForPiece wB 5 4 pinBoard, d.col = 4) ∧
      (∀ d ∈ getPieceMoves wB 5 4 pinBoard false, d.col ≠ 4)) ∧
    (⟨4, 3⟩ : Square) ∈ getPieceMoves wB 5 4 pinBoard false :=
  ⟨pinned_bishop_stays_on_file pinBoard 4 7 5 1 (by decide) (by decide) (by decide)
    (by decide) (by decide) (by decide) (by decide) (by decide) (by decide)
    (by
      intro r hr hne
      have : r = 2 ∨ r = 3 ∨ r = 4 ∨ r = 6 := by omega
      rcases this with h | h | h | h <;> subst h <;> decide),
    by decide⟩

end Chess
